import Mathlib

/-!
Shallow embedding of the standalone denoiser pipeline found in
`src/blender/blender_viewport.cpp` (the `render/denoising.cpp` portion of
that file): channel-name parsing and layer assembly (`DenoiseImage::
parse_channels`, `DenoiseImageLayer::detect_denoising_channels`), tile
creation (`DenoiseTask::create_task`), 3x3 neighbour tile mapping and
output-buffer seeding (`DenoiseTask::map_neighboring_tiles`), the
write-back (`DenoiseTask::unmap_neighboring_tiles`), the intensity box
blur of `DenoiseTask::load_input_pixels`, and the temp-file save protocol
of `DenoiseImage::save_output`.

Modelling conventions:
* machine `float` values are modelled as rationals (`ℚ`);
* a flat pixel store is a total function `Nat → ℚ`;
* a device buffer that the code fills by pushing values sequentially is
  modelled as the list of pushed values, in push order;
* a loop of scattered stores is modelled as a left fold of single-cell
  updates executed in source order (`applyWrites`);
* `std::map<string, ...>` is modelled as an association list kept sorted
  by the `<` comparator on keys (lexicographic comparison of character
  codes), with std::map's equivalence "neither key compares less";
* filesystem side effects of `save_output` are modelled as the trace of
  actions the function performs, in order.
-/

namespace Denoise

/-! ### Generic store/loop infrastructure -/

/-- A single store `f[k] = v` on a flat float buffer. -/
def fupdate (f : Nat → ℚ) (k : Nat) (v : ℚ) : Nat → ℚ :=
  fun j => if j = k then v else f j

/-- A loop of stores, executed left to right in source order. -/
def applyWrites (f : Nat → ℚ) (ws : List (Nat × ℚ)) : Nat → ℚ :=
  ws.foldl (fun g kv => fupdate g kv.1 kv.2) f

/-- Sum of `f` over the half-open index window `[lo, hi)`. -/
def windowSum (f : Nat → ℚ) (lo hi : Nat) : ℚ :=
  ((List.range' lo (hi - lo)).map f).sum

/-- The accumulation loop `for (i = lo; i < hi; i++, n++) sum += f i;`
returning the final `(n, sum)`, as in the two blur passes of
`DenoiseTask::load_input_pixels`. -/
def loopAcc (f : Nat → ℚ) (lo hi : Nat) : Nat × ℚ :=
  (List.range' lo (hi - lo)).foldl (fun p dx => (p.1 + 1, p.2 + f dx)) (0, 0)

/-! ### Channel mapping (lines 208-249 of the source) -/

structure ChannelMapping where
  channel : Nat
  name : String
deriving DecidableEq

/-- `fill_mapping`: push one `(pos++, name + "." + chan)` entry per
component character. -/
def fill_mapping (pos : Nat) (name : String) : List Char → List ChannelMapping
  | [] => []
  | c :: cs => ⟨pos, name ++ "." ++ String.mk [c]⟩ :: fill_mapping (pos + 1) name cs

def INPUT_NUM_CHANNELS : Nat := 15
def INPUT_DENOISING_DEPTH : Nat := 0
def INPUT_DENOISING_NORMAL : Nat := 1
def INPUT_DENOISING_SHADOWING : Nat := 4
def INPUT_DENOISING_ALBEDO : Nat := 5
def INPUT_NOISY_IMAGE : Nat := 8
def INPUT_DENOISING_VARIANCE : Nat := 11
def INPUT_DENOISING_INTENSITY : Nat := 14

def input_channels : List ChannelMapping :=
  fill_mapping INPUT_DENOISING_DEPTH "Denoising Depth" "Z".data ++
  fill_mapping INPUT_DENOISING_NORMAL "Denoising Normal" "XYZ".data ++
  fill_mapping INPUT_DENOISING_SHADOWING "Denoising Shadowing" "X".data ++
  fill_mapping INPUT_DENOISING_ALBEDO "Denoising Albedo" "RGB".data ++
  fill_mapping INPUT_NOISY_IMAGE "Noisy Image" "RGB".data ++
  fill_mapping INPUT_DENOISING_VARIANCE "Denoising Variance" "RGB".data ++
  fill_mapping INPUT_DENOISING_INTENSITY "Denoising Intensity" "X".data

def OUTPUT_NUM_CHANNELS : Nat := 3

def output_channels : List ChannelMapping :=
  fill_mapping 0 "Combined" "RGB".data

/-! ### Channel name splitting (lines 169-206) -/

/-- `split_last_dot` on the character list: splits at the last `'.'`,
returning `(part before, part after)`; `none` when no dot occurs. -/
def splitLastDotL : List Char → Option (List Char × List Char)
  | [] => none
  | c :: cs =>
    match splitLastDotL cs with
    | some (pre, suf) => some (c :: pre, suf)
    | none => if c = '.' then some ([], cs) else none

def split_last_dot (s : String) : Option (String × String) :=
  match splitLastDotL s.data with
  | none => none
  | some (pre, suf) => some (String.mk pre, String.mk suf)

/-- `parse_channel_name`: returns `(renderlayer, pass, channel)`.
In multi-view mode the view component is split off after the channel and
appended to the renderlayer key with a dot. -/
def parse_channel_name (name : String) (multiview_channels : Bool) :
    Option (String × String × String) :=
  match split_last_dot name with
  | none => none
  | some (rest, channel) =>
    if multiview_channels then
      match split_last_dot rest with
      | none => none
      | some (rest2, view) =>
        match split_last_dot rest2 with
        | none => none
        | some (layer, pass) => some (layer ++ "." ++ view, pass, channel)
    else
      match split_last_dot rest with
      | none => none
      | some (layer, pass) => some (layer, pass, channel)

/-! ### std::map key order -/

/-- Lexicographic `<` on character lists by character code, the
comparator `std::map<std::string, ...>` iterates with. -/
def lexLt : List Char → List Char → Bool
  | _, [] => false
  | [], _ :: _ => true
  | a :: as, b :: bs =>
    decide (a.toNat < b.toNat) || (decide (a.toNat = b.toNat) && lexLt as bs)

def strLt (a b : String) : Bool := lexLt a.data b.data

/-! ### Layer grouping (`parse_channels`, lines 694-753) -/

/-- A provisional layer while grouping file channels by renderlayer key:
`channels` holds the `"pass.chan"` strings in discovery order and `l2ic`
the corresponding file channel indices (`layer_to_image_channel`). -/
structure ProvLayer where
  key : String
  channels : List String
  l2ic : List Nat
deriving DecidableEq

/-- `file_layers[layer].channels.push_back(...)`: std::map insertion into
the sorted association list. A key for which neither `<` holds is the
same key (std::map key equivalence). -/
def addChannel (key ch : String) (idx : Nat) : List ProvLayer → List ProvLayer
  | [] => [⟨key, [ch], [idx]⟩]
  | l :: rest =>
    if strLt key l.key then ⟨key, [ch], [idx]⟩ :: l :: rest
    else if strLt l.key key then l :: addChannel key ch idx rest
    else ⟨l.key, l.channels ++ [ch], l.l2ic ++ [idx]⟩ :: rest

/-- The grouping loop of `parse_channels`: walk the file channel names with
their index `i`, parse each name, and group parsable ones by layer key. -/
def group_go (mv : Bool) : List String → Nat → List ProvLayer → List ProvLayer
  | [], _, acc => acc
  | name :: rest, i, acc =>
    match parse_channel_name name mv with
    | none => group_go mv rest (i + 1) acc
    | some (layer, pass, channel) =>
      group_go mv rest (i + 1) (addChannel layer (pass ++ "." ++ channel) i acc)

def group_channels (names : List String) (mv : Bool) : List ProvLayer :=
  group_go mv names 0 []

/-! ### Channel detection (`detect_denoising_channels`, lines 253-294) -/

/-- `std::find` over the layer's channel list, as a position. -/
def find_index (s : String) : List String → Option Nat
  | [] => none
  | c :: cs => if c = s then some 0 else (find_index s cs).map (· + 1)

/-- The fill loop of `detect_denoising_channels`: for each required
mapping, find its channel in the layer and store the corresponding file
channel index at slot `mapping.channel`; fail when a channel is absent. -/
def detect_fill (channels : List String) (l2ic : List Nat) :
    List ChannelMapping → List Int → Option (List Int)
  | [], acc => some acc
  | m :: ms, acc =>
    match find_index m.name channels with
    | none => none
    | some j => detect_fill channels l2ic ms (acc.set m.channel ((l2ic.getD j 0 : Nat) : Int))

def detect_denoising_channels (channels : List String) (l2ic : List Nat) :
    Option (List Int × List Int) :=
  match detect_fill channels l2ic input_channels (List.replicate INPUT_NUM_CHANNELS (-1)) with
  | none => none
  | some itic =>
    match detect_fill channels l2ic output_channels (List.replicate OUTPUT_NUM_CHANNELS (-1)) with
    | none => none
    | some otic => some (itic, otic)

/-! ### Samples resolution and retained layers -/

structure DenoiseImageLayer where
  name : String
  channels : List String
  layer_to_image_channel : List Nat
  input_to_image_channel : List Int
  output_to_image_channel : List Int
  samples : Int
deriving DecidableEq, Inhabited

/-- Result of `sscanf(s, "%d", &v)`: `eof` when input ends (after
whitespace) before any conversion, `fail` on a matching failure, `okv v`
when a decimal integer was read. -/
inductive ScanResult where
  | eof
  | fail
  | okv (v : Int)
deriving DecidableEq

def isSpaceChar (c : Char) : Bool :=
  c.toNat = 32 || (9 ≤ c.toNat && c.toNat ≤ 13)

def digitsToNat : List Char → Nat → Nat
  | [], acc => acc
  | c :: cs, acc => digitsToNat cs (acc * 10 + (c.toNat - 48))

def sscanf_d (s : List Char) : ScanResult :=
  match s.dropWhile isSpaceChar with
  | [] => ScanResult.eof
  | c :: rest =>
    if c = '-' then
      match rest.takeWhile Char.isDigit with
      | [] => ScanResult.fail
      | ds => ScanResult.okv (-(digitsToNat ds 0 : Int))
    else if c = '+' then
      match rest.takeWhile Char.isDigit with
      | [] => ScanResult.fail
      | ds => ScanResult.okv (digitsToNat ds 0 : Int)
    else
      match (c :: rest).takeWhile Char.isDigit with
      | [] => ScanResult.fail
      | ds => ScanResult.okv (digitsToNat ds 0 : Int)

/-- The samples block of `parse_channels` (lines 728-747): start from the
task-level override; when it is not positive, consult the
`cycles.<layer>.samples` attribute value. `sscanf` returning a matching
failure raises the parse error; `EOF` leaves the value unset. A value
still below 1 at the end is the "no sample number" error. -/
def resolve_samples (samples : Int) (name : String) (attr_val : String) : Except String Int :=
  let step : Except String Int :=
    if samples < 1 then
      if attr_val ≠ "" then
        match sscanf_d attr_val.data with
        | ScanResult.okv v => Except.ok v
        | ScanResult.eof => Except.ok samples
        | ScanResult.fail => Except.error ("Failed to parse samples metadata: " ++ attr_val)
      else Except.ok samples
    else Except.ok samples
  match step with
  | Except.error e => Except.error e
  | Except.ok v =>
    if v < 1 then
      Except.error ("No sample number specified in the file for layer " ++ name ++
        " or on the command line")
    else Except.ok v

/-- The retain loop of `parse_channels` (lines 717-750): iterate the
std::map in key order; skip layers that miss a required channel; resolve
samples (failure aborts the whole call); retain the rest in order. -/
def parse_layers (samples : Int) (attr : String → String) :
    List ProvLayer → Except String (List DenoiseImageLayer)
  | [] => Except.ok []
  | p :: rest =>
    match detect_denoising_channels p.channels p.l2ic with
    | none => parse_layers samples attr rest
    | some (itic, otic) =>
      match resolve_samples samples p.key (attr ("cycles." ++ p.key ++ ".samples")) with
      | Except.error e => Except.error e
      | Except.ok s =>
        match parse_layers samples attr rest with
        | Except.error e => Except.error e
        | Except.ok ls => Except.ok (⟨p.key, p.channels, p.l2ic, itic, otic, s⟩ :: ls)

/-- `DenoiseImage::parse_channels`. `samples` is the task-level override
(`samples_override`, copied into `image.samples`), `mv` the multi-view
flag computed from the `multiView` attribute, `attr` the string-attribute
lookup of the input spec (returning `""` when absent, as
`get_string_attribute` does). `num_channels` equals `names.length`. -/
def parse_channels (samples : Int) (names : List String) (mv : Bool)
    (attr : String → String) : Except String (List DenoiseImageLayer) :=
  parse_layers samples attr (group_channels names mv)

/-- Modelled from the spec: the "discovery order" of layer keys named by
claim C3 — the order in which each layer key first occurs in the file's
channel name list. Used only to compare against the source's std::map
order. -/
def discovery_go (mv : Bool) : List String → List String → List String
  | [], acc => acc
  | name :: rest, acc =>
    match parse_channel_name name mv with
    | none => discovery_go mv rest acc
    | some (layer, _, _) =>
      discovery_go mv rest (if layer ∈ acc then acc else acc ++ [layer])

def discovery_keys (names : List String) (mv : Bool) : List String :=
  discovery_go mv names []

/-! ### Box blur on the intensity channel (lines 562-591)

`buf` is one frame slab of the device input buffer: pixel `(x, y)` has its
15 channels at `15*(y*W+x) .. 15*(y*W+x)+14`, intensity at offset 14
(`float *data = buffer_data + 14` with stride `INPUT_NUM_CHANNELS`). -/

/-- `int r = 5 * denoiser->params.radius;` -/
def blur_radius (radius : Nat) : Nat := 5 * radius

/-- Horizontal pass value `temp[y*w+x]`: accumulate
`for (dx = max(x-r,0); dx < min(x+r+1, w); dx++, n++)` and divide by `n`.
(`x - r` on `Nat` is the clamped `max(x-r, 0)`.) -/
def box_blur_temp (W r : Nat) (buf : Nat → ℚ) (y x : Nat) : ℚ :=
  let p := loopAcc (fun dx => buf (INPUT_NUM_CHANNELS * (y * W + dx) + 14))
    (x - r) (min (x + r + 1) W)
  p.2 / (p.1 : ℚ)

/-- The vertical pass stores, in source order: for each pixel `(x, y)`,
write the average of `temp` over `[max(y-r,0), min(y+r+1,h))` into
`data[15*(y*w+x)]`, i.e. flat index `15*(y*W+x)+14`. -/
def box_blur_writes (W H r : Nat) (buf : Nat → ℚ) : List (Nat × ℚ) :=
  (List.range H).flatMap fun y => (List.range W).map fun x =>
    let p := loopAcc (fun dy => box_blur_temp W r buf dy x) (y - r) (min (y + r + 1) H)
    (INPUT_NUM_CHANNELS * (y * W + x) + 14, p.2 / (p.1 : ℚ))

/-- The whole separable box blur of one frame slab. -/
def box_blur (W H r : Nat) (buf : Nat → ℚ) : Nat → ℚ :=
  applyWrites buf (box_blur_writes W H r buf)

/-- Modelled from the spec wording of claim C2 (for comparison only):
the same separable blur but with half-open windows
`[max(x-r,0), min(x+r,W))` and `[max(y-r,0), min(y+r,H))`. -/
def box_blur_temp_specwin (W r : Nat) (buf : Nat → ℚ) (y x : Nat) : ℚ :=
  let p := loopAcc (fun dx => buf (INPUT_NUM_CHANNELS * (y * W + dx) + 14))
    (x - r) (min (x + r) W)
  p.2 / (p.1 : ℚ)

def box_blur_writes_specwin (W H r : Nat) (buf : Nat → ℚ) : List (Nat × ℚ) :=
  (List.range H).flatMap fun y => (List.range W).map fun x =>
    let p := loopAcc (fun dy => box_blur_temp_specwin W r buf dy x) (y - r) (min (y + r) H)
    (INPUT_NUM_CHANNELS * (y * W + x) + 14, p.2 / (p.1 : ℚ))

def box_blur_specwin (W H r : Nat) (buf : Nat → ℚ) : Nat → ℚ :=
  applyWrites buf (box_blur_writes_specwin W H r buf)

/-! ### Neighbour tile geometry (`map_neighboring_tiles`, lines 370-424) -/

/-- The fields of `RenderTile` this file reasons about; `buffer` is an
abstract identifier of the device memory a tile points into. -/
structure RenderTile where
  x : Int
  y : Int
  w : Int
  h : Int
  offset : Int
  stride : Int
  buffer : Nat
  tile_index : Int
deriving DecidableEq

/-- cycles' `clamp(a, mn, mx) = max(min(a, mx), mn)`. -/
def clampI (a mn mx : Int) : Int := max (min a mx) mn

/-- Neighbour tile `i` (for `i ∈ 0..8`, `i ≠ 4`): geometry clamped to the
image, sharing the centre's buffer and offset with `stride = W`. -/
def map_neighbor_tile (tsx tsy W H : Int) (t4 : RenderTile) (i : Nat) : RenderTile :=
  let dx : Int := ((i % 3 : Nat) : Int) - 1
  let dy : Int := ((i / 3 : Nat) : Int) - 1
  let x := clampI (t4.x + dx * tsx) 0 W
  let w := clampI (t4.x + (dx + 1) * tsx) 0 W - x
  let y := clampI (t4.y + dy * tsy) 0 H
  let h := clampI (t4.y + (dy + 1) * tsy) 0 H - y
  { t4 with x := x, y := y, w := w, h := h, stride := W }

/-- Output tile `tiles[9]`: a copy of `tiles[4]` pointing at the output
buffer, with `stride = w` and `offset -= x + y * stride`. -/
def map_output_tile (t4 : RenderTile) (outBuf : Nat) : RenderTile :=
  { t4 with buffer := outBuf, stride := t4.w, offset := t4.offset - (t4.x + t4.y * t4.w) }

/-- The ten tiles produced by `map_neighboring_tiles` given centre tile
`t4` and the freshly allocated output buffer `outBuf`. -/
def map_neighboring_tiles_geom (tsx tsy W H : Int) (t4 : RenderTile) (outBuf : Nat) :
    Nat → RenderTile :=
  fun i =>
    if i = 4 then t4
    else if i = 9 then map_output_tile t4 outBuf
    else map_neighbor_tile tsx tsy W H t4 i

/-- Flat buffer address of tile pixel `(px, py)`. -/
def tileAddr (t : RenderTile) (px py : Int) : Int :=
  t.offset + py * t.stride + px

/-! ### Output buffer seeding and write-back (lines 391-455)

The centre tile is `(cx, cy, cw, ch)`, the image is `W` wide with
`n = num_channels` floats per pixel. The pointer walk
`in = &pixels[n*(cy*W+cx)]; ...; in[n*x + c]; in += n*W;` reads flat
index `n*((cy+y)*W + (cx+x)) + c`. -/

/-- The output buffer as seeded by `map_neighboring_tiles`: a fresh
buffer of `3*cw*ch` floats, filled in push order with the noisy-image
channels `input_to_image_channel[INPUT_NOISY_IMAGE + k]` of the centre
rectangle. -/
def map_output_seed (pixels : Nat → ℚ) (n W cx cy cw ch : Nat) (itic : Nat → Nat) : List ℚ :=
  (List.range ch).flatMap fun y => (List.range cw).flatMap fun x =>
    (List.range OUTPUT_NUM_CHANNELS).map fun k =>
      pixels (n * ((cy + y) * W + (cx + x)) + itic (INPUT_NOISY_IMAGE + k))

/-- The stores of `unmap_neighboring_tiles`, in source order:
`out[n*x + output_to_image_channel[i]] = result[(y*cw+x)*3 + i]`. -/
def unmap_writes (n W cx cy cw ch : Nat) (otic : Nat → Nat) (result : Nat → ℚ) :
    List (Nat × ℚ) :=
  (List.range ch).flatMap fun y => (List.range cw).flatMap fun x =>
    (List.range OUTPUT_NUM_CHANNELS).map fun k =>
      (n * ((cy + y) * W + (cx + x)) + otic k, result ((y * cw + x) * OUTPUT_NUM_CHANNELS + k))

/-- `unmap_neighboring_tiles`: write the per-tile device output buffer
`result` back into the image pixel store. -/
def unmap_neighboring_tiles (pixels : Nat → ℚ) (n W cx cy cw ch : Nat)
    (otic : Nat → Nat) (result : Nat → ℚ) : Nat → ℚ :=
  applyWrites pixels (unmap_writes n W cx cy cw ch otic result)

/-! ### Tile creation (`create_task`, lines 493-525) -/

/-- `divide_up(x, y) = (x + y - 1) / y`. -/
def divide_up (x y : Nat) : Nat := (x + y - 1) / y

/-- The geometry of one tile pushed by `create_task` (fields not about
geometry or identity — samples, buffer handle, task tag — are omitted).
All quantities are non-negative in the source loop, hence `Nat`. -/
structure QTile where
  x : Nat
  y : Nat
  w : Nat
  h : Nat
  offset : Nat
  stride : Nat
  index : Nat
deriving DecidableEq, Inhabited

def mk_tile (W H tw th tiles_x tx ty : Nat) : QTile :=
  { x := tx * tw
    y := ty * th
    w := min (W - tx * tw) tw
    h := min (H - ty * th) th
    offset := 0
    stride := W
    index := ty * tiles_x + tx }

/-- The tile list built by `create_task`, in push (raster) order. -/
def create_task_tiles (W H tw th : Nat) : List QTile :=
  (List.range (divide_up H th)).flatMap fun ty =>
    (List.range (divide_up W tw)).map fun tx =>
      mk_tile W H tw th (divide_up W tw) tx ty

def tile_contains (t : QTile) (px py : Nat) : Prop :=
  t.x ≤ px ∧ px < t.x + t.w ∧ t.y ≤ py ∧ py < t.y + t.h

instance (t : QTile) (px py : Nat) : Decidable (tile_contains t px py) := by
  unfold tile_contains; infer_instance

/-! ### Save protocol (`save_output`, lines 878-938) -/

/-- The filesystem-affecting calls `save_output` makes, in order.
`createOut` is `ImageOutput::create` (constructs the writer, no file
yet), `openOut` is `ImageOutput::open` (creates/truncates the temp file),
`renameOver src dst ok` is `Filesystem::rename` with its success. -/
inductive FsAction where
  | createOut (path : String)
  | openOut (path : String)
  | writeOut (path : String)
  | closeOut (path : String)
  | renameOver (src dst : String) (ok : Bool)
  | removeTemp (path : String)
deriving DecidableEq

structure SaveResult where
  ok : Bool
  actions : List FsAction
deriving DecidableEq

/-- `out_filepath + (".denoise-tmp-" + unique_path()) + extension`. -/
def tmp_filepath (out_filepath extension uniq : String) : String :=
  out_filepath ++ (".denoise-tmp-" ++ uniq) ++ extension

/-- `DenoiseImage::save_output` control flow, parameterised by which of
the five fallible operations succeed. `create` or `open` failing returns
immediately; after a successful `open`, `write_image` and `close` are
both attempted, `rename` is attempted only when both succeeded, and the
temp file is removed iff the final status is failure. -/
def save_output (out_filepath extension uniq : String)
    (create_ok open_ok write_ok close_ok rename_ok : Bool) : SaveResult :=
  let tmp := tmp_filepath out_filepath extension uniq
  if create_ok = false then { ok := false, actions := [FsAction.createOut tmp] }
  else if open_ok = false then
    { ok := false, actions := [FsAction.createOut tmp, FsAction.openOut tmp] }
  else
    let acts := [FsAction.createOut tmp, FsAction.openOut tmp,
      FsAction.writeOut tmp, FsAction.closeOut tmp]
    if write_ok && close_ok then
      if rename_ok then
        { ok := true, actions := acts ++ [FsAction.renameOver tmp out_filepath true] }
      else
        { ok := false, actions := acts ++
            [FsAction.renameOver tmp out_filepath false, FsAction.removeTemp tmp] }
    else { ok := false, actions := acts ++ [FsAction.removeTemp tmp] }

/-! ### Concrete example inputs used by witnesses and counterexamples -/

/-- The 18 `"pass.chan"` names a layer needs (15 inputs + 3 outputs). -/
def full_channel_set : List String :=
  ["Denoising Depth.Z",
   "Denoising Normal.X", "Denoising Normal.Y", "Denoising Normal.Z",
   "Denoising Shadowing.X",
   "Denoising Albedo.R", "Denoising Albedo.G", "Denoising Albedo.B",
   "Noisy Image.R", "Noisy Image.G", "Noisy Image.B",
   "Denoising Variance.R", "Denoising Variance.G", "Denoising Variance.B",
   "Denoising Intensity.X",
   "Combined.R", "Combined.G", "Combined.B"]

def layer_names (l : String) : List String :=
  full_channel_set.map (fun s => l ++ "." ++ s)

/-- File channel list with layer "B" discovered before layer "A". -/
def exNamesBA : List String := layer_names "B" ++ layer_names "A"

def exNamesA : List String := layer_names "A"

def exAttrEmpty : String → String := fun _ => ""

def exLayersBA : List DenoiseImageLayer :=
  (parse_channels 1 exNamesBA false exAttrEmpty).toOption.getD []

def exLayersA7 : List DenoiseImageLayer :=
  (parse_channels 7 exNamesA false exAttrEmpty).toOption.getD []

def exProvA : ProvLayer :=
  (group_channels exNamesA false).headD ⟨"", [], []⟩

/-- Intensity image for the blur counterexample: pixel (1,0) of a 2x1
slab has intensity 1, everything else 0. -/
def exBuf : Nat → ℚ := fun i => if i = 29 then 1 else 0

def exPix : Nat → ℚ := fun i => (i : ℚ)

def exRes : Nat → ℚ := fun i => (i : ℚ) + 100

def exOtic : Nat → Nat := fun k => k

def exItic : Nat → Nat := fun j => j

/-- A concrete centre tile for the C6 witness: tile (1,0) of a 100x80
image at 64x64 tile size. -/
def exT4 : RenderTile :=
  { x := 64, y := 0, w := 36, h := 64, offset := 0, stride := 100,
    buffer := 5, tile_index := 1 }

/-! ## Theorems -/

/-! ### Store-loop lemmas -/

theorem fupdate_self (f : Nat → ℚ) (k : Nat) (v : ℚ) : fupdate f k v k = v := by
  simp [fupdate]

theorem fupdate_ne (f : Nat → ℚ) (k : Nat) (v : ℚ) (j : Nat) (h : j ≠ k) :
    fupdate f k v j = f j := by
  simp [fupdate, h]

theorem applyWrites_cons (f : Nat → ℚ) (p : Nat × ℚ) (ws : List (Nat × ℚ)) :
    applyWrites f (p :: ws) = applyWrites (fupdate f p.1 p.2) ws := rfl

/-- A cell no store targets keeps its old value. -/
theorem applyWrites_of_forall_ne (f : Nat → ℚ) (ws : List (Nat × ℚ)) (k : Nat)
    (h : ∀ p ∈ ws, p.1 ≠ k) : applyWrites f ws k = f k := by
  induction ws generalizing f with
  | nil => rfl
  | cons p t ih =>
    rw [applyWrites_cons, ih _ fun q hq => h q (List.mem_cons_of_mem _ hq)]
    exact fupdate_ne _ _ _ _ fun hk => h p (List.mem_cons_self _ _) hk.symm

/-- A cell all of whose stores write the same value `v` ends up holding
`v`. -/
theorem applyWrites_of_mem (f : Nat → ℚ) (ws : List (Nat × ℚ)) (k : Nat) (v : ℚ)
    (hmem : (k, v) ∈ ws) (huniq : ∀ p ∈ ws, p.1 = k → p.2 = v) :
    applyWrites f ws k = v := by
  induction ws generalizing f with
  | nil => cases hmem
  | cons p t ih =>
    by_cases hk : k ∈ t.map Prod.fst
    · obtain ⟨q, hq, hq1⟩ := List.mem_map.1 hk
      have hv : q.2 = v := huniq q (List.mem_cons_of_mem _ hq) hq1
      have hqkv : (k, v) ∈ t := by
        have : q = (k, v) := by
          cases q; simp only at hq1 hv; rw [hq1, hv]
        exact this ▸ hq
      rw [applyWrites_cons]
      exact ih _ hqkv fun r hr h1 => huniq r (List.mem_cons_of_mem _ hr) h1
    · have hp : p = (k, v) := by
        rcases List.mem_cons.1 hmem with h | h
        · exact h.symm
        · exact absurd (List.mem_map.2 ⟨(k, v), h, rfl⟩) hk
      subst hp
      rw [applyWrites_cons,
        applyWrites_of_forall_ne _ _ _ fun q hq h1 =>
          hk (List.mem_map.2 ⟨q, hq, h1⟩)]
      exact fupdate_self _ _ _

/-- A loop whose every store rewrites the value the cell already holds
leaves the whole buffer unchanged. -/
theorem applyWrites_keep (f : Nat → ℚ) (ws : List (Nat × ℚ))
    (h : ∀ p ∈ ws, p.2 = f p.1) (j : Nat) : applyWrites f ws j = f j := by
  induction ws generalizing f with
  | nil => rfl
  | cons p t ih =>
    have hp2 : p.2 = f p.1 := h p (List.mem_cons_self _ _)
    rw [applyWrites_cons]
    have hrest : ∀ q ∈ t, q.2 = fupdate f p.1 p.2 q.1 := by
      intro q hq
      rw [h q (List.mem_cons_of_mem _ hq)]
      by_cases hq1 : q.1 = p.1 <;> simp [fupdate, hq1, hp2]
    rw [ih _ hrest]
    by_cases hj : j = p.1 <;> simp [fupdate, hj, hp2]

theorem loopAcc_eq (f : Nat → ℚ) (lo hi : Nat) :
    loopAcc f lo hi = (hi - lo, windowSum f lo hi) := by
  unfold loopAcc windowSum
  generalize hi - lo = len
  suffices h : ∀ (len lo : Nat) (n : Nat) (s : ℚ),
      (List.range' lo len).foldl (fun p dx => (p.1 + 1, p.2 + f dx)) (n, s) =
        (n + len, s + ((List.range' lo len).map f).sum) by
    simpa using h len lo 0 0
  intro len
  induction len with
  | zero => simp
  | succ m ih =>
    intro lo n s
    rw [List.range'_succ]
    simp only [List.foldl_cons, List.map_cons, List.sum_cons]
    rw [ih]
    simp only [Prod.mk.injEq]
    exact ⟨by omega, by ring⟩

/-! ### C7 — radius-0 blur is the identity -/

/-- Claim C7 (confirmed): with `params.radius = 0` (so `r = 5*0 = 0`),
both blur passes average a window of exactly one sample, and the
preprocessing box blur leaves every float of the frame slab — in
particular the whole intensity channel — unchanged. -/
theorem box_blur_radius_zero_id (W H : Nat) (buf : Nat → ℚ) (i : Nat) :
    box_blur W H (blur_radius 0) buf i = buf i := by
  apply applyWrites_keep
  intro p hp
  simp only [box_blur_writes, List.mem_flatMap, List.mem_map, List.mem_range] at hp
  obtain ⟨y, hy, x, hx, hpx⟩ := hp
  have hr : blur_radius 0 = 0 := rfl
  rw [hr] at hpx
  have hminy : min (y + 0 + 1) H = y + 1 := by omega
  have hminx : min (x + 0 + 1) W = x + 1 := by omega
  have htemp : box_blur_temp W 0 buf y x = buf (INPUT_NUM_CHANNELS * (y * W + x) + 14) := by
    rw [box_blur_temp, loopAcc_eq, hminx]
    have : x + 1 - (x - 0) = 1 := by omega
    rw [windowSum]
    simp [this, List.range'_one]
  rw [← hpx]
  simp only [loopAcc_eq, hminy]
  have h1 : y + 1 - (y - 0) = 1 := by omega
  rw [windowSum]
  simp [h1, List.range'_one, htemp]

/-! ### C2 — the blur windows -/

/-- Row-major pixel index decomposition is unique when the column is in
range. -/
theorem rowcol_unique (W y x z u : Nat) (hx : x < W) (hu : u < W)
    (h : y * W + x = z * W + u) : y = z ∧ x = u := by
  have hW : 0 < W := lt_of_le_of_lt (Nat.zero_le x) hx
  have e1 : y * W + x = W * y + x := by ring
  have e2 : z * W + u = W * z + u := by ring
  rw [e1, e2] at h
  have hxu : x = u := by
    have := congrArg (· % W) h
    simpa [Nat.mul_add_mod, Nat.mod_eq_of_lt hx, Nat.mod_eq_of_lt hu] using this
  subst hxu
  exact ⟨Nat.eq_of_mul_eq_mul_left hW (by omega), rfl⟩

theorem box_blur_temp_eq (W r : Nat) (buf : Nat → ℚ) (y x : Nat) :
    box_blur_temp W r buf y x =
      windowSum (fun dx => buf (INPUT_NUM_CHANNELS * (y * W + dx) + 14))
          (x - r) (min (x + r + 1) W) /
        ((min (x + r + 1) W - (x - r) : Nat) : ℚ) := by
  rw [box_blur_temp, loopAcc_eq]

theorem box_blur_temp_specwin_eq (W r : Nat) (buf : Nat → ℚ) (y x : Nat) :
    box_blur_temp_specwin W r buf y x =
      windowSum (fun dx => buf (INPUT_NUM_CHANNELS * (y * W + dx) + 14))
          (x - r) (min (x + r) W) /
        ((min (x + r) W - (x - r) : Nat) : ℚ) := by
  rw [box_blur_temp_specwin, loopAcc_eq]

/-- The blurred intensity value of pixel `(x, y)`. -/
theorem box_blur_value (W H r : Nat) (buf : Nat → ℚ) (y x : Nat)
    (hy : y < H) (hx : x < W) :
    box_blur W H r buf (INPUT_NUM_CHANNELS * (y * W + x) + 14) =
      windowSum (fun dy => box_blur_temp W r buf dy x) (y - r) (min (y + r + 1) H) /
        ((min (y + r + 1) H - (y - r) : Nat) : ℚ) := by
  apply applyWrites_of_mem
  · simp only [box_blur_writes, List.mem_flatMap, List.mem_map, List.mem_range]
    exact ⟨y, hy, x, hx, by rw [loopAcc_eq]⟩
  · intro p hp h1
    simp only [box_blur_writes, List.mem_flatMap, List.mem_map, List.mem_range] at hp
    obtain ⟨y1, hy1, x1, hx1, hpx⟩ := hp
    rw [← hpx] at h1 ⊢
    simp only at h1
    simp only [INPUT_NUM_CHANNELS] at h1
    have hA : y1 * W + x1 = y * W + x := by omega
    obtain ⟨hyy, hxx⟩ := rowcol_unique W y1 x1 y x hx1 hx hA
    subst hyy; subst hxx
    simp only [loopAcc_eq]

/-- The value of the spec-worded variant at pixel `(x, y)`. -/
theorem box_blur_specwin_value (W H r : Nat) (buf : Nat → ℚ) (y x : Nat)
    (hy : y < H) (hx : x < W) :
    box_blur_specwin W H r buf (INPUT_NUM_CHANNELS * (y * W + x) + 14) =
      windowSum (fun dy => box_blur_temp_specwin W r buf dy x) (y - r) (min (y + r) H) /
        ((min (y + r) H - (y - r) : Nat) : ℚ) := by
  apply applyWrites_of_mem
  · simp only [box_blur_writes_specwin, List.mem_flatMap, List.mem_map, List.mem_range]
    exact ⟨y, hy, x, hx, by rw [loopAcc_eq]⟩
  · intro p hp h1
    simp only [box_blur_writes_specwin, List.mem_flatMap, List.mem_map, List.mem_range] at hp
    obtain ⟨y1, hy1, x1, hx1, hpx⟩ := hp
    rw [← hpx] at h1 ⊢
    simp only at h1
    simp only [INPUT_NUM_CHANNELS] at h1
    have hA : y1 * W + x1 = y * W + x := by omega
    obtain ⟨hyy, hxx⟩ := rowcol_unique W y1 x1 y x hx1 hx hA
    subst hyy; subst hxx
    simp only [loopAcc_eq]

/-- Counterexample to claim C2 as stated: on a 2x1 slab with intensity
values (0, 1) and `radius = 1` (so `r = 5` would exceed the image; use
the in-range window radius r = 1 to isolate the window bound), the code
averages pixel (0,0) over the half-open window `[0, min(0+1+1, 2)) =
{0, 1}` giving 1/2, while the spec's window `[0, min(0+1, 2)) = {0}`
gives 0. The code includes column `x + r`; the claim's window
`[max(x-r,0), min(x+r,W))` excludes it. -/
theorem c2_counterexample :
    box_blur 2 1 1 exBuf 14 = 1 / 2 ∧
    box_blur_specwin 2 1 1 exBuf 14 = 0 ∧
    box_blur 2 1 1 exBuf 14 ≠ box_blur_specwin 2 1 1 exBuf 14 := by
  have e14 : (14 : Nat) = INPUT_NUM_CHANNELS * (0 * 2 + 0) + 14 := by
    norm_num [INPUT_NUM_CHANNELS]
  have h1 : box_blur 2 1 1 exBuf 14 = 1 / 2 := by
    rw [e14, box_blur_value 2 1 1 exBuf 0 0 (by norm_num) (by norm_num)]
    have ht0 : box_blur_temp 2 1 exBuf 0 0 = 1 / 2 := by
      rw [box_blur_temp_eq]
      have : List.range' (0 - 1) (min (0 + 1 + 1) 2 - (0 - 1)) = [0, 1] := rfl
      rw [windowSum, this]
      norm_num [exBuf, INPUT_NUM_CHANNELS]
    have : List.range' (0 - 1) (min (0 + 1 + 1) 1 - (0 - 1)) = [0] := rfl
    rw [windowSum, this]
    simp [ht0]
  have h2 : box_blur_specwin 2 1 1 exBuf 14 = 0 := by
    rw [e14, box_blur_specwin_value 2 1 1 exBuf 0 0 (by norm_num) (by norm_num)]
    have ht0 : box_blur_temp_specwin 2 1 exBuf 0 0 = 0 := by
      rw [box_blur_temp_specwin_eq]
      have : List.range' (0 - 1) (min (0 + 1) 2 - (0 - 1)) = [0] := rfl
      rw [windowSum, this]
      norm_num [exBuf, INPUT_NUM_CHANNELS]
    have : List.range' (0 - 1) (min (0 + 1) 1 - (0 - 1)) = [0] := rfl
    rw [windowSum, this]
    simp [ht0]
  refine ⟨h1, h2, ?_⟩
  rw [h1, h2]
  norm_num

/-- Claim C2 (corrected): the passes average over the half-open windows
`[max(x-r,0), min(x+r+1,W))` (horizontal) and `[max(y-r,0), min(y+r+1,H))`
(vertical) — i.e. the window is inclusive of `x+r` — with `r = 5 *
params.radius`; in each pass the divisor is exactly the number of samples
in that window. (`x - r` on `Nat` is `max(x-r, 0)`.) -/
theorem c2_blur_windows (radius W H : Nat) (buf : Nat → ℚ) (y x : Nat)
    (hy : y < H) (hx : x < W) :
    (box_blur W H (blur_radius radius) buf (INPUT_NUM_CHANNELS * (y * W + x) + 14) =
      windowSum (fun dy => box_blur_temp W (blur_radius radius) buf dy x)
          (y - blur_radius radius) (min (y + blur_radius radius + 1) H) /
        ((min (y + blur_radius radius + 1) H - (y - blur_radius radius) : Nat) : ℚ)) ∧
    (box_blur_temp W (blur_radius radius) buf y x =
      windowSum (fun dx => buf (INPUT_NUM_CHANNELS * (y * W + dx) + 14))
          (x - blur_radius radius) (min (x + blur_radius radius + 1) W) /
        ((min (x + blur_radius radius + 1) W - (x - blur_radius radius) : Nat) : ℚ)) :=
  ⟨box_blur_value W H (blur_radius radius) buf y x hy hx,
   box_blur_temp_eq W (blur_radius radius) buf y x⟩

/-- Witness for the corrected C2 at `radius = 1`, `W = 2`, `H = 1`,
pixel `(0,0)`. -/
theorem c2_blur_windows_witness :
    ((0 : Nat) < 1 ∧ (0 : Nat) < 2) ∧
    ((box_blur 2 1 (blur_radius 1) exBuf (INPUT_NUM_CHANNELS * (0 * 2 + 0) + 14) =
      windowSum (fun dy => box_blur_temp 2 (blur_radius 1) exBuf dy 0)
          (0 - blur_radius 1) (min (0 + blur_radius 1 + 1) 1) /
        ((min (0 + blur_radius 1 + 1) 1 - (0 - blur_radius 1) : Nat) : ℚ)) ∧
    (box_blur_temp 2 (blur_radius 1) exBuf 0 0 =
      windowSum (fun dx => exBuf (INPUT_NUM_CHANNELS * (0 * 2 + dx) + 14))
          (0 - blur_radius 1) (min (0 + blur_radius 1 + 1) 2) /
        ((min (0 + blur_radius 1 + 1) 2 - (0 - blur_radius 1) : Nat) : ℚ))) :=
  ⟨⟨by decide, by decide⟩, c2_blur_windows 1 2 1 exBuf 0 0 (by decide) (by decide)⟩

/-! ### C6 — neighbour tile geometry -/

/-- Claim C6 (confirmed): every neighbour tile `i ∈ {0..8} \ {4}` gets the
clamped geometry computed from `dx = (i%3)-1`, `dy = (i/3)-1` and shares
the centre tile's buffer and offset with `stride = W`; tile 9 copies tile
4's geometry and index but points at the output buffer with `stride = cw`
and `offset` lowered by `cx + cy*cw`, so that the centre tile's corner
pixel `(cx, cy)` addresses cell 0 of the output buffer whenever the
centre tile's offset is 0 (as `create_task` makes it). -/
theorem c6_neighbor_tiles (tsx tsy W H : Int) (t4 : RenderTile) (outBuf : Nat) :
    (∀ i : Nat, i < 9 → i ≠ 4 →
      (map_neighboring_tiles_geom tsx tsy W H t4 outBuf i).x =
          clampI (t4.x + (((i % 3 : Nat) : Int) - 1) * tsx) 0 W ∧
      (map_neighboring_tiles_geom tsx tsy W H t4 outBuf i).w =
          clampI (t4.x + ((((i % 3 : Nat) : Int) - 1) + 1) * tsx) 0 W -
            (map_neighboring_tiles_geom tsx tsy W H t4 outBuf i).x ∧
      (map_neighboring_tiles_geom tsx tsy W H t4 outBuf i).y =
          clampI (t4.y + (((i / 3 : Nat) : Int) - 1) * tsy) 0 H ∧
      (map_neighboring_tiles_geom tsx tsy W H t4 outBuf i).h =
          clampI (t4.y + ((((i / 3 : Nat) : Int) - 1) + 1) * tsy) 0 H -
            (map_neighboring_tiles_geom tsx tsy W H t4 outBuf i).y ∧
      (map_neighboring_tiles_geom tsx tsy W H t4 outBuf i).buffer = t4.buffer ∧
      (map_neighboring_tiles_geom tsx tsy W H t4 outBuf i).offset = t4.offset ∧
      (map_neighboring_tiles_geom tsx tsy W H t4 outBuf i).stride = W) ∧
    ((map_neighboring_tiles_geom tsx tsy W H t4 outBuf 9).x = t4.x ∧
     (map_neighboring_tiles_geom tsx tsy W H t4 outBuf 9).y = t4.y ∧
     (map_neighboring_tiles_geom tsx tsy W H t4 outBuf 9).w = t4.w ∧
     (map_neighboring_tiles_geom tsx tsy W H t4 outBuf 9).h = t4.h ∧
     (map_neighboring_tiles_geom tsx tsy W H t4 outBuf 9).tile_index = t4.tile_index ∧
     (map_neighboring_tiles_geom tsx tsy W H t4 outBuf 9).buffer = outBuf ∧
     (map_neighboring_tiles_geom tsx tsy W H t4 outBuf 9).stride = t4.w ∧
     (map_neighboring_tiles_geom tsx tsy W H t4 outBuf 9).offset =
        t4.offset - (t4.x + t4.y * t4.w) ∧
     (t4.offset = 0 →
        tileAddr (map_neighboring_tiles_geom tsx tsy W H t4 outBuf 9) t4.x t4.y = 0)) := by
  constructor
  · intro i h9 h4
    have h9' : i ≠ 9 := by omega
    simp only [map_neighboring_tiles_geom, if_neg h4, if_neg h9', map_neighbor_tile]
    simp
  · have h4 : (9 : Nat) ≠ 4 := by omega
    simp only [map_neighboring_tiles_geom, if_neg h4, if_pos rfl, map_output_tile, tileAddr]
    refine ⟨rfl, rfl, rfl, rfl, rfl, rfl, rfl, rfl, ?_⟩
    intro h0
    rw [h0]
    simp only [if_true]
    ring

/-- Witness for C6: tile (1,0) of a 100x80 image, neighbour `i = 5`
(the tile to the right, clipped off-image to zero width) and the output
tile's addressing identity. -/
theorem c6_neighbor_tiles_witness :
    ((5 : Nat) < 9 ∧ (5 : Nat) ≠ 4 ∧ exT4.offset = 0) ∧
    (map_neighboring_tiles_geom 64 64 100 80 exT4 7 5).stride = 100 ∧
    (map_neighboring_tiles_geom 64 64 100 80 exT4 7 5).x =
      clampI (exT4.x + (((5 % 3 : Nat) : Int) - 1) * 64) 0 100 ∧
    tileAddr (map_neighboring_tiles_geom 64 64 100 80 exT4 7 9) exT4.x exT4.y = 0 := by
  have h := c6_neighbor_tiles 64 64 100 80 exT4 7
  have h5 := h.1 5 (by decide) (by decide)
  exact ⟨⟨by decide, by decide, by decide⟩, h5.2.2.2.2.2.2, h5.1,
    h.2.2.2.2.2.2.2.2.2 (by decide)⟩

/-! ### Indexing lemmas for buffers built by nested push loops -/

theorem getD_append_off {α : Type} (l1 l2 : List α) (d : α) (k : Nat) :
    (l1 ++ l2).getD (l1.length + k) d = l2.getD k d := by
  induction l1 with
  | nil => simp
  | cons a t ih =>
    have : (a :: t).length + k = (t.length + k) + 1 := by simp; omega
    rw [this, List.cons_append, List.getD_cons_succ, ih]

theorem length_range_flatMap {α : Type} (g : Nat → List α) (L : Nat) :
    ∀ n, (∀ i, i < n → (g i).length = L) →
      ((List.range n).flatMap g).length = n * L := by
  intro n
  induction n with
  | zero => simp
  | succ m ih =>
    intro h
    rw [List.range_succ, List.flatMap_append, List.length_append,
      ih fun i hi => h i (by omega)]
    have h1 : ([m].flatMap g).length = L := by
      simp [List.flatMap_cons, h m (by omega)]
    have h2 : (m + 1) * L = m * L + L := by ring
    omega

theorem getD_range_flatMap {α : Type} (d : α) (g : Nat → List α) (L : Nat) :
    ∀ n i j, (∀ t, t < n → (g t).length = L) → i < n → j < L →
      ((List.range n).flatMap g).getD (i * L + j) d = (g i).getD j d := by
  intro n
  induction n with
  | zero => intro i j _ hi; omega
  | succ m ih =>
    intro i j hlen hi hj
    rw [List.range_succ, List.flatMap_append]
    by_cases him : i < m
    · rw [List.getD_append]
      · exact ih i j (fun t ht => hlen t (by omega)) him hj
      · rw [length_range_flatMap g L m fun t ht => hlen t (by omega)]
        have h1 : (i + 1) * L ≤ m * L := Nat.mul_le_mul_right L (by omega)
        have h2 : (i + 1) * L = i * L + L := by ring
        omega
    · have him' : i = m := by omega
      rw [him']
      have hlenp : ((List.range m).flatMap g).length = m * L :=
        length_range_flatMap g L m fun t ht => hlen t (by omega)
      rw [← hlenp, getD_append_off]
      simp [List.flatMap_cons]

theorem getD_range_map {α : Type} (d : α) (f : Nat → α) (n k : Nat) (hk : k < n) :
    ((List.range n).map f).getD k d = f k := by
  have hlen : k < ((List.range n).map f).length := by simpa using hk
  rw [List.getD_eq_getElem _ _ hlen, List.getElem_map, List.getElem_range]

/-! ### The unmap write-back -/

/-- `n*a + b` with `b < n` decomposes uniquely. -/
theorem addr_decomp (n a b c e : Nat) (hb : b < n) (he : e < n)
    (h : n * a + b = n * c + e) : a = c ∧ b = e := by
  have hn : 0 < n := lt_of_le_of_lt (Nat.zero_le b) hb
  have hbe : b = e := by
    have := congrArg (· % n) h
    simpa [Nat.mul_add_mod, Nat.mod_eq_of_lt hb, Nat.mod_eq_of_lt he] using this
  subst hbe
  exact ⟨Nat.eq_of_mul_eq_mul_left hn (by omega), rfl⟩

/-- The value `unmap_neighboring_tiles` leaves at the channel
`output_to_image_channel k` of tile pixel `(x, y)`. -/
theorem unmap_value (pixels result : Nat → ℚ) (n W cx cy cw ch : Nat)
    (otic : Nat → Nat)
    (hcw : cx + cw ≤ W)
    (hlt : ∀ k, k < 3 → otic k < n)
    (hinj : ∀ k, k < 3 → ∀ j, j < 3 → otic k = otic j → k = j)
    (x : Nat) (hx : x < cw) (y : Nat) (hy : y < ch) (k : Nat) (hk : k < 3) :
    unmap_neighboring_tiles pixels n W cx cy cw ch otic result
        (n * ((cy + y) * W + (cx + x)) + otic k) =
      result ((y * cw + x) * OUTPUT_NUM_CHANNELS + k) := by
  apply applyWrites_of_mem
  · simp only [unmap_writes, List.mem_flatMap, List.mem_map, List.mem_range]
    exact ⟨y, hy, x, hx, k, by simpa [OUTPUT_NUM_CHANNELS] using hk, rfl⟩
  · intro p hp h1
    simp only [unmap_writes, List.mem_flatMap, List.mem_map, List.mem_range] at hp
    obtain ⟨y1, hy1, x1, hx1, k1, hk1, hpx⟩ := hp
    simp only [OUTPUT_NUM_CHANNELS] at hk1
    rw [← hpx] at h1 ⊢
    simp only at h1
    obtain ⟨hrow, hko⟩ := addr_decomp n ((cy + y1) * W + (cx + x1)) (otic k1)
      ((cy + y) * W + (cx + x)) (otic k) (hlt k1 hk1) (hlt k hk) h1
    obtain ⟨hyy, hxx⟩ := rowcol_unique W (cy + y1) (cx + x1) (cy + y) (cx + x)
      (by omega) (by omega) hrow
    have hk' : k1 = k := hinj k1 hk1 k hk hko
    have hy' : y1 = y := by omega
    have hx' : x1 = x := by omega
    subst hk'; subst hy'; subst hx'
    rfl

/-- A cell outside every targeted address is untouched by the
write-back. -/
theorem unmap_untouched (pixels result : Nat → ℚ) (n W cx cy cw ch : Nat)
    (otic : Nat → Nat) (idx : Nat)
    (hidx : ∀ x, x < cw → ∀ y, y < ch → ∀ k, k < 3 →
      idx ≠ n * ((cy + y) * W + (cx + x)) + otic k) :
    unmap_neighboring_tiles pixels n W cx cy cw ch otic result idx = pixels idx := by
  apply applyWrites_of_forall_ne
  intro p hp
  simp only [unmap_writes, List.mem_flatMap, List.mem_map, List.mem_range] at hp
  obtain ⟨y1, hy1, x1, hx1, k1, hk1, hpx⟩ := hp
  simp only [OUTPUT_NUM_CHANNELS] at hk1
  rw [← hpx]
  exact fun h => hidx x1 hx1 y1 hy1 k1 hk1 h.symm

/-! ### C1 — the write-back frame effect -/

/-- Claim C1 (confirmed): after `unmap_neighboring_tiles` for a centre
tile at `(cx, cy)` of size `cw x ch`, pixel `(cx+x, cy+y)`'s channel
`output_to_image_channel[k]` holds `out_buffer[(y*cw+x)*3 + k]`, and
every float whose flat index is not of that form — pixels outside the
tile rectangle, and other channels of in-rectangle pixels — is unchanged.
Hypotheses record that the tile lies inside the image and that the three
output channel slots are distinct valid channel indices, as guaranteed
for every retained layer (claim C10). -/
theorem c1_unmap_write_back (pixels result : Nat → ℚ) (n W cx cy cw ch : Nat)
    (otic : Nat → Nat)
    (hcw : cx + cw ≤ W)
    (hlt : ∀ k, k < 3 → otic k < n)
    (hinj : ∀ k, k < 3 → ∀ j, j < 3 → otic k = otic j → k = j) :
    (∀ x, x < cw → ∀ y, y < ch → ∀ k, k < 3 →
      unmap_neighboring_tiles pixels n W cx cy cw ch otic result
          (n * ((cy + y) * W + (cx + x)) + otic k) =
        result ((y * cw + x) * OUTPUT_NUM_CHANNELS + k)) ∧
    (∀ idx, (∀ x, x < cw → ∀ y, y < ch → ∀ k, k < 3 →
        idx ≠ n * ((cy + y) * W + (cx + x)) + otic k) →
      unmap_neighboring_tiles pixels n W cx cy cw ch otic result idx = pixels idx) :=
  ⟨fun x hx y hy k hk =>
      unmap_value pixels result n W cx cy cw ch otic hcw hlt hinj x hx y hy k hk,
   fun idx hidx =>
      unmap_untouched pixels result n W cx cy cw ch otic idx hidx⟩

/-- Witness for C1: a 3-wide image with 4 channels, centre tile
`(1, 0)`-`(2, 1)`, identity output reshuffle. The written cell holds the
device value; the untouched cell `0` (pixel (0,0), channel 0) keeps its
old value. -/
theorem c1_unmap_write_back_witness :
    ((1 : Nat) + 2 ≤ 3 ∧ (∀ k, k < 3 → exOtic k < 4)) ∧
    unmap_neighboring_tiles exPix 4 3 1 0 2 2 exOtic exRes
        (4 * ((0 + 1) * 3 + (1 + 1)) + exOtic 2) =
      exRes ((1 * 2 + 1) * OUTPUT_NUM_CHANNELS + 2) ∧
    unmap_neighboring_tiles exPix 4 3 1 0 2 2 exOtic exRes 0 = exPix 0 := by
  have h := c1_unmap_write_back exPix exRes 4 3 1 0 2 2 exOtic (by decide)
    (by decide) (by decide)
  exact ⟨⟨by decide, by decide⟩,
    h.1 1 (by decide) 1 (by decide) 2 (by decide),
    h.2 0 (by decide)⟩

/-! ### C5 — seeding and the map/unmap round trip -/

/-- The seeded output buffer has the documented length. -/
theorem map_output_seed_length (pixels : Nat → ℚ) (n W cx cy cw ch : Nat)
    (itic : Nat → Nat) :
    (map_output_seed pixels n W cx cy cw ch itic).length =
      OUTPUT_NUM_CHANNELS * cw * ch := by
  rw [map_output_seed, length_range_flatMap _ (cw * OUTPUT_NUM_CHANNELS)]
  · ring
  · intro y hy
    rw [length_range_flatMap _ OUTPUT_NUM_CHANNELS]
    intro x hx
    simp [OUTPUT_NUM_CHANNELS]

/-- Entry `(y*cw+x)*3 + k` of the seeded buffer is the centre image's
noisy-image channel `k` of pixel `(cx+x, cy+y)`. -/
theorem map_output_seed_getD (pixels : Nat → ℚ) (n W cx cy cw ch : Nat)
    (itic : Nat → Nat) (x : Nat) (hx : x < cw) (y : Nat) (hy : y < ch)
    (k : Nat) (hk : k < 3) :
    (map_output_seed pixels n W cx cy cw ch itic).getD
        ((y * cw + x) * OUTPUT_NUM_CHANNELS + k) 0 =
      pixels (n * ((cy + y) * W + (cx + x)) + itic (INPUT_NOISY_IMAGE + k)) := by
  have hidx : (y * cw + x) * OUTPUT_NUM_CHANNELS + k =
      y * (cw * OUTPUT_NUM_CHANNELS) + (x * OUTPUT_NUM_CHANNELS + k) := by ring
  rw [map_output_seed, hidx,
    getD_range_flatMap _ _ (cw * OUTPUT_NUM_CHANNELS) ch y
      (x * OUTPUT_NUM_CHANNELS + k)
      (fun t ht => by
        rw [length_range_flatMap _ OUTPUT_NUM_CHANNELS]
        intro u hu
        simp [OUTPUT_NUM_CHANNELS])
      hy
      (by
        have h1 : (x + 1) * OUTPUT_NUM_CHANNELS ≤ cw * OUTPUT_NUM_CHANNELS :=
          Nat.mul_le_mul_right _ (by omega)
        have h2 : (x + 1) * OUTPUT_NUM_CHANNELS = x * OUTPUT_NUM_CHANNELS +
          OUTPUT_NUM_CHANNELS := by ring
        simp only [OUTPUT_NUM_CHANNELS] at h1 h2 ⊢
        omega),
    getD_range_flatMap _ _ OUTPUT_NUM_CHANNELS cw x k
      (fun t ht => by simp [OUTPUT_NUM_CHANNELS]) hx
      (by simpa [OUTPUT_NUM_CHANNELS] using hk),
    getD_range_map _ _ _ k (by simpa [OUTPUT_NUM_CHANNELS] using hk)]

/-- Claim C5 (confirmed): `map_neighboring_tiles` allocates an output
buffer of `3*cw*ch` floats and seeds entry `(y*cw+x)*3 + k` with the
centre image's value at channel `input_to_image_channel[INPUT_NOISY_IMAGE
+ k]` of pixel `(cx+x, cy+y)`; consequently, if the device leaves the
buffer unchanged between map and unmap, the write-back stores each tile
pixel's original noisy-image value into its combined output channels. -/
theorem c5_seed_round_trip (pixels : Nat → ℚ) (n W cx cy cw ch : Nat)
    (itic otic : Nat → Nat)
    (hcw : cx + cw ≤ W)
    (hlt : ∀ k, k < 3 → otic k < n)
    (hinj : ∀ k, k < 3 → ∀ j, j < 3 → otic k = otic j → k = j) :
    (map_output_seed pixels n W cx cy cw ch itic).length =
        OUTPUT_NUM_CHANNELS * cw * ch ∧
    (∀ x, x < cw → ∀ y, y < ch → ∀ k, k < 3 →
      (map_output_seed pixels n W cx cy cw ch itic).getD
          ((y * cw + x) * OUTPUT_NUM_CHANNELS + k) 0 =
        pixels (n * ((cy + y) * W + (cx + x)) + itic (INPUT_NOISY_IMAGE + k))) ∧
    (∀ x, x < cw → ∀ y, y < ch → ∀ k, k < 3 →
      unmap_neighboring_tiles pixels n W cx cy cw ch otic
          (fun idx => (map_output_seed pixels n W cx cy cw ch itic).getD idx 0)
          (n * ((cy + y) * W + (cx + x)) + otic k) =
        pixels (n * ((cy + y) * W + (cx + x)) + itic (INPUT_NOISY_IMAGE + k))) := by
  refine ⟨map_output_seed_length pixels n W cx cy cw ch itic,
    fun x hx y hy k hk => map_output_seed_getD pixels n W cx cy cw ch itic x hx y hy k hk,
    fun x hx y hy k hk => ?_⟩
  rw [unmap_value pixels _ n W cx cy cw ch otic hcw hlt hinj x hx y hy k hk]
  exact map_output_seed_getD pixels n W cx cy cw ch itic x hx y hy k hk

/-- Witness for C5: 1x1 tile of a 1-wide image with 3 channels; the
round trip reproduces the noisy-image channel. -/
theorem c5_seed_round_trip_witness :
    ((0 : Nat) + 1 ≤ 1 ∧ (∀ k, k < 3 → exOtic k < 3)) ∧
    (map_output_seed exPix 3 1 0 0 1 1 exItic).length = OUTPUT_NUM_CHANNELS * 1 * 1 ∧
    unmap_neighboring_tiles exPix 3 1 0 0 1 1 exOtic
        (fun idx => (map_output_seed exPix 3 1 0 0 1 1 exItic).getD idx 0)
        (3 * ((0 + 0) * 1 + (0 + 0)) + exOtic 1) =
      exPix (3 * ((0 + 0) * 1 + (0 + 0)) + exItic (INPUT_NOISY_IMAGE + 1)) := by
  have h := c5_seed_round_trip exPix 3 1 0 0 1 1 exItic exOtic (by decide)
    (by decide) (by decide)
  exact ⟨⟨by decide, by decide⟩, h.1, h.2.2 0 (by decide) 0 (by decide) 1 (by decide)⟩

/-! ### C9 — the save protocol -/

/-- Counterexample to claim C9 as stated: when `ImageOutput::open` fails
(`open_ok = false`, after a successful `create`), `save_output` returns
early with an error and never calls `Filesystem::remove` on the temp
path — the removal only guards the write/close/rename failures. -/
theorem c9_counterexample :
    (save_output "img.exr" ".exr" "u1" true false true true true).ok = false ∧
    FsAction.openOut (tmp_filepath "img.exr" ".exr" "u1") ∈
      (save_output "img.exr" ".exr" "u1" true false true true true).actions ∧
    FsAction.removeTemp (tmp_filepath "img.exr" ".exr" "u1") ∉
      (save_output "img.exr" ".exr" "u1" true false true true true).actions := by
  refine ⟨rfl, ?_, ?_⟩ <;> decide

/-- Claim C9 (corrected): `save_output` writes to the sibling temp path
`<output>.denoise-tmp-<unique><ext>`; on success it renames the temp file
over the target. On a write, close, or rename failure the temp file is
removed and the target is never successfully renamed over; but on a
create or open failure the function returns immediately without calling
remove (the spec's "on any failure remove the temp file" does not hold on
the open-failure path). -/
theorem c9_save_output (out ext uniq : String)
    (create_ok open_ok write_ok close_ok rename_ok : Bool) :
    (tmp_filepath out ext uniq = out ++ ".denoise-tmp-" ++ uniq ++ ext) ∧
    (create_ok = true → open_ok = true → write_ok = true → close_ok = true →
      rename_ok = true →
      (save_output out ext uniq create_ok open_ok write_ok close_ok rename_ok).ok = true ∧
      FsAction.renameOver (tmp_filepath out ext uniq) out true ∈
        (save_output out ext uniq create_ok open_ok write_ok close_ok rename_ok).actions ∧
      FsAction.removeTemp (tmp_filepath out ext uniq) ∉
        (save_output out ext uniq create_ok open_ok write_ok close_ok rename_ok).actions) ∧
    (create_ok = true → open_ok = true →
      (write_ok = false ∨ close_ok = false ∨ rename_ok = false) →
      (save_output out ext uniq create_ok open_ok write_ok close_ok rename_ok).ok = false ∧
      FsAction.removeTemp (tmp_filepath out ext uniq) ∈
        (save_output out ext uniq create_ok open_ok write_ok close_ok rename_ok).actions ∧
      FsAction.renameOver (tmp_filepath out ext uniq) out true ∉
        (save_output out ext uniq create_ok open_ok write_ok close_ok rename_ok).actions) ∧
    ((create_ok = false ∨ open_ok = false) →
      (save_output out ext uniq create_ok open_ok write_ok close_ok rename_ok).ok = false ∧
      FsAction.removeTemp (tmp_filepath out ext uniq) ∉
        (save_output out ext uniq create_ok open_ok write_ok close_ok rename_ok).actions ∧
      FsAction.renameOver (tmp_filepath out ext uniq) out true ∉
        (save_output out ext uniq create_ok open_ok write_ok close_ok rename_ok).actions) := by
  refine ⟨by simp [tmp_filepath, String.append_assoc], ?_, ?_, ?_⟩ <;>
    cases create_ok <;> cases open_ok <;> cases write_ok <;> cases close_ok <;>
      cases rename_ok <;> simp [save_output]

/-- Witness for the corrected C9 at a close failure: the temp file is
removed and no successful rename happens. -/
theorem c9_save_output_witness :
    (save_output "a.exr" ".exr" "u" true true true false true).ok = false ∧
    FsAction.removeTemp (tmp_filepath "a.exr" ".exr" "u") ∈
      (save_output "a.exr" ".exr" "u" true true true false true).actions ∧
    FsAction.renameOver (tmp_filepath "a.exr" ".exr" "u") "a.exr" true ∉
      (save_output "a.exr" ".exr" "u" true true true false true).actions :=
  (c9_save_output "a.exr" ".exr" "u" true true true false true).2.2.1 rfl rfl
    (Or.inr (Or.inl rfl))

/-! ### C4 — tile creation -/

theorem divide_up_pos (W tw : Nat) (hW : 1 ≤ W) (htw : 1 ≤ tw) :
    1 ≤ divide_up W tw := by
  unfold divide_up
  rw [Nat.one_le_div_iff (by omega)]
  omega

theorem divide_up_le_mul (W tw : Nat) (htw : 1 ≤ tw) : W ≤ divide_up W tw * tw := by
  have hdm := Nat.div_add_mod (W + tw - 1) tw
  have hmod : (W + tw - 1) % tw < tw := Nat.mod_lt _ (by omega)
  unfold divide_up
  have hq : tw * ((W + tw - 1) / tw) = (W + tw - 1) / tw * tw := by ring
  omega

theorem mul_lt_of_lt_divide_up (W tw tx : Nat) (htw : 1 ≤ tw)
    (htx : tx < divide_up W tw) : tx * tw < W := by
  have hdm := Nat.div_add_mod (W + tw - 1) tw
  have hmod : (W + tw - 1) % tw < tw := Nat.mod_lt _ (by omega)
  have h1 : (tx + 1) * tw ≤ divide_up W tw * tw :=
    Nat.mul_le_mul_right tw (by omega)
  have h2 : (tx + 1) * tw = tx * tw + tw := by ring
  have h3 : tw * ((W + tw - 1) / tw) = (W + tw - 1) / tw * tw := by ring
  have h4 : tw * 1 ≤ tw * ((W + tw - 1) / tw) :=
    Nat.mul_le_mul_left tw (by unfold divide_up at htx; omega)
  unfold divide_up at h1
  omega

theorem div_lt_divide_up (W tw px : Nat) (htw : 1 ≤ tw) (hpx : px < W) :
    px / tw < divide_up W tw := by
  have h1 : px / tw * tw ≤ px := Nat.div_mul_le_self px tw
  have h2 : W ≤ divide_up W tw * tw := divide_up_le_mul W tw htw
  exact Nat.lt_of_mul_lt_mul_right (a := tw) (by omega)

theorem div_eq_of_between (tw tx px : Nat) (htw : 1 ≤ tw)
    (h1 : tx * tw ≤ px) (h2 : px < tx * tw + tw) : px / tw = tx := by
  have hs : px = (px - tx * tw) + tx * tw := by omega
  rw [hs, Nat.add_mul_div_right _ _ (by omega : 0 < tw),
    Nat.div_eq_of_lt (by omega)]
  omega

theorem divide_up_eq_one (W tw : Nat) (hW : 1 ≤ W) (h2 : W ≤ tw) :
    divide_up W tw = 1 := by
  unfold divide_up
  exact Nat.div_eq_of_lt_le (by omega) (by omega)

theorem mem_create_task_tiles (W H tw th : Nat) (t : QTile) :
    t ∈ create_task_tiles W H tw th ↔
      ∃ ty, ty < divide_up H th ∧ ∃ tx, tx < divide_up W tw ∧
        t = mk_tile W H tw th (divide_up W tw) tx ty := by
  simp only [create_task_tiles, List.mem_flatMap, List.mem_map, List.mem_range]
  constructor
  · rintro ⟨ty, hty, tx, htx, rfl⟩
    exact ⟨ty, hty, tx, htx, rfl⟩
  · rintro ⟨ty, hty, tx, htx, rfl⟩
    exact ⟨ty, hty, tx, htx, rfl⟩

/-- Claim C4 (confirmed): for `W, H ≥ 1` and tile size `tw, th ≥ 1`,
`create_task` produces exactly `ceil(W/tw) * ceil(H/th)` tiles, in raster
order (the tile at list position `p` has `tile_index = p`), whose
rectangles clipped to the image exhaustively and disjointly cover
`[0,W) x [0,H)`; an image no larger than one tile yields exactly one tile
of width `W` and height `H`. -/
theorem c4_create_task (W H tw th : Nat)
    (hW : 1 ≤ W) (hH : 1 ≤ H) (htw : 1 ≤ tw) (hth : 1 ≤ th) :
    (create_task_tiles W H tw th).length = divide_up W tw * divide_up H th ∧
    (∀ p, p < (create_task_tiles W H tw th).length →
      ((create_task_tiles W H tw th).getD p default).index = p) ∧
    (∀ px py, px < W → py < H →
      ∃! t : QTile, t ∈ create_task_tiles W H tw th ∧ tile_contains t px py) ∧
    (W ≤ tw → H ≤ th → (create_task_tiles W H tw th).length = 1 ∧
      ∀ t ∈ create_task_tiles W H tw th, t.w = W ∧ t.h = H) := by
  have hlen : (create_task_tiles W H tw th).length =
      divide_up H th * divide_up W tw := by
    rw [create_task_tiles, length_range_flatMap _ (divide_up W tw)]
    intro ty hty
    simp
  refine ⟨by rw [hlen]; ring, ?_, ?_, ?_⟩
  · -- raster order
    intro p hp
    rw [hlen] at hp
    set T := divide_up W tw with hT
    have hT1 : 1 ≤ T := divide_up_pos W tw hW htw
    have hdm := Nat.div_add_mod p T
    have htyb : p / T < divide_up H th := by
      rw [Nat.div_lt_iff_lt_mul (by omega)]
      exact hp
    have htxb : p % T < T := Nat.mod_lt _ (by omega)
    have hcm : T * (p / T) = (p / T) * T := by ring
    have hpe : (p / T) * T + p % T = p := by omega
    rw [← hpe, create_task_tiles,
      getD_range_flatMap _ _ T _ (p / T) (p % T) (fun t ht => by simp) htyb htxb,
      getD_range_map _ _ _ _ htxb]
    simp [mk_tile]
  · -- exhaustive and disjoint cover
    intro px py hpx hpy
    set T := divide_up W tw with hT
    refine ⟨mk_tile W H tw th T (px / tw) (py / th), ⟨?_, ?_⟩, ?_⟩
    · exact (mem_create_task_tiles W H tw th _).2
        ⟨py / th, div_lt_divide_up H th py hth hpy,
         px / tw, div_lt_divide_up W tw px htw hpx, rfl⟩
    · have hx1 : px / tw * tw ≤ px := Nat.div_mul_le_self px tw
      have hx2 := Nat.div_add_mod px tw
      have hx3 : px % tw < tw := Nat.mod_lt _ (by omega)
      have hx4 : tw * (px / tw) = px / tw * tw := by ring
      have hy1 : py / th * th ≤ py := Nat.div_mul_le_self py th
      have hy2 := Nat.div_add_mod py th
      have hy3 : py % th < th := Nat.mod_lt _ (by omega)
      have hy4 : th * (py / th) = py / th * th := by ring
      refine ⟨hx1, ?_, hy1, ?_⟩ <;> simp only [mk_tile] <;> omega
    · rintro t ⟨htm, htc⟩
      obtain ⟨ty, hty, tx, htx, rfl⟩ := (mem_create_task_tiles W H tw th t).1 htm
      obtain ⟨hc1, hc2, hc3, hc4⟩ := htc
      simp only [mk_tile] at hc1 hc2 hc3 hc4
      have hx5 : px < tx * tw + tw := by omega
      have hy5 : py < ty * th + th := by omega
      have : px / tw = tx := div_eq_of_between tw tx px htw hc1 hx5
      have : py / th = ty := div_eq_of_between th ty py hth hc3 hy5
      simp_all
  · -- image no larger than one tile
    intro hWtw hHth
    have h1 : divide_up W tw = 1 := divide_up_eq_one W tw hW hWtw
    have h2 : divide_up H th = 1 := divide_up_eq_one H th hH hHth
    constructor
    · rw [hlen, h1, h2]
    · intro t htm
      obtain ⟨ty, hty, tx, htx, rfl⟩ := (mem_create_task_tiles W H tw th t).1 htm
      rw [h1] at htx
      rw [h2] at hty
      have htx0 : tx = 0 := by omega
      have hty0 : ty = 0 := by omega
      subst htx0; subst hty0
      simp only [mk_tile, Nat.zero_mul, Nat.sub_zero]
      omega

/-- Witness for C4: a 3x2 image with 2x1 tiles has `2 * 2` tiles and the
pixel `(2, 1)` lies in exactly one tile. -/
theorem c4_create_task_witness :
    ((1 : Nat) ≤ 3 ∧ (1 : Nat) ≤ 2) ∧
    (create_task_tiles 3 2 2 1).length = divide_up 3 2 * divide_up 2 1 ∧
    (∃! t : QTile, t ∈ create_task_tiles 3 2 2 1 ∧ tile_contains t 2 1) := by
  have h := c4_create_task 3 2 2 1 (by decide) (by decide) (by decide) (by decide)
  exact ⟨⟨by decide, by decide⟩, h.1, h.2.2.1 2 1 (by decide) (by decide)⟩

/-! ### C3 — layer order -/

theorem lexLt_trans : ∀ a b c : List Char,
    lexLt a b = true → lexLt b c = true → lexLt a c = true := by
  intro a
  induction a with
  | nil =>
    intro b c hab hbc
    cases b with
    | nil => simp [lexLt] at hab
    | cons y bs =>
      cases c with
      | nil => simp [lexLt] at hbc
      | cons z cs => simp [lexLt]
  | cons x as ih =>
    intro b c hab hbc
    cases b with
    | nil => simp [lexLt] at hab
    | cons y bs =>
      cases c with
      | nil => simp [lexLt] at hbc
      | cons z cs =>
        simp only [lexLt, Bool.or_eq_true, Bool.and_eq_true, decide_eq_true_eq]
          at hab hbc ⊢
        rcases hab with h1 | ⟨h1, h2⟩ <;> rcases hbc with h3 | ⟨h3, h4⟩
        · exact Or.inl (by omega)
        · exact Or.inl (by omega)
        · exact Or.inl (by omega)
        · exact Or.inr ⟨by omega, ih bs cs h2 h4⟩

theorem strLt_trans (a b c : String) (h1 : strLt a b = true) (h2 : strLt b c = true) :
    strLt a c = true :=
  lexLt_trans a.data b.data c.data h1 h2

/-- The std::map iteration order on provisional layers. -/
def keyLt (a b : ProvLayer) : Prop := strLt a.key b.key = true

theorem addChannel_key_mem (key ch : String) (idx : Nat) :
    ∀ acc, ∀ q ∈ addChannel key ch idx acc,
      q.key = key ∨ ∃ p ∈ acc, q.key = p.key := by
  intro acc
  induction acc with
  | nil =>
    intro q hq
    simp only [addChannel, List.mem_singleton] at hq
    subst hq
    exact Or.inl rfl
  | cons l rest ih =>
    intro q hq
    simp only [addChannel] at hq
    by_cases h1 : strLt key l.key = true
    · rw [if_pos h1] at hq
      rcases List.mem_cons.1 hq with rfl | hq2
      · exact Or.inl rfl
      · rcases List.mem_cons.1 hq2 with rfl | hq3
        · exact Or.inr ⟨q, List.mem_cons_self _ _, rfl⟩
        · exact Or.inr ⟨q, List.mem_cons_of_mem _ hq3, rfl⟩
    · rw [if_neg h1] at hq
      by_cases h2 : strLt l.key key = true
      · rw [if_pos h2] at hq
        rcases List.mem_cons.1 hq with rfl | hq2
        · exact Or.inr ⟨q, List.mem_cons_self _ _, rfl⟩
        · rcases ih q hq2 with h | ⟨p, hp, he⟩
          · exact Or.inl h
          · exact Or.inr ⟨p, List.mem_cons_of_mem _ hp, he⟩
      · rw [if_neg h2] at hq
        rcases List.mem_cons.1 hq with rfl | hq2
        · exact Or.inr ⟨l, List.mem_cons_self _ _, rfl⟩
        · exact Or.inr ⟨q, List.mem_cons_of_mem _ hq2, rfl⟩

theorem addChannel_pairwise (key ch : String) (idx : Nat) :
    ∀ acc, List.Pairwise keyLt acc →
      List.Pairwise keyLt (addChannel key ch idx acc) := by
  intro acc
  induction acc with
  | nil => intro _; simp [addChannel, keyLt]
  | cons l rest ih =>
    intro hp
    rw [List.pairwise_cons] at hp
    obtain ⟨hl, hrest⟩ := hp
    simp only [addChannel]
    by_cases h1 : strLt key l.key = true
    · rw [if_pos h1]
      refine List.Pairwise.cons ?_ (List.Pairwise.cons hl hrest)
      intro q hq
      rcases List.mem_cons.1 hq with rfl | hq2
      · exact h1
      · exact strLt_trans key l.key q.key h1 (hl q hq2)
    · rw [if_neg h1]
      by_cases h2 : strLt l.key key = true
      · rw [if_pos h2]
        refine List.Pairwise.cons ?_ (ih hrest)
        intro q hq
        rcases addChannel_key_mem key ch idx rest q hq with he | ⟨p, hp, he⟩
        · show strLt l.key q.key = true
          rw [he]
          exact h2
        · show strLt l.key q.key = true
          rw [he]
          exact hl p hp
      · rw [if_neg h2]
        exact List.Pairwise.cons hl hrest

theorem group_go_pairwise (mv : Bool) : ∀ (names : List String) (i : Nat)
    (acc : List ProvLayer), List.Pairwise keyLt acc →
      List.Pairwise keyLt (group_go mv names i acc) := by
  intro names
  induction names with
  | nil => intro i acc h; exact h
  | cons name rest ih =>
    intro i acc h
    simp only [group_go]
    cases parse_channel_name name mv with
    | none => exact ih (i + 1) acc h
    | some v =>
      obtain ⟨layer, pass, channel⟩ := v
      exact ih (i + 1) _ (addChannel_pairwise layer (pass ++ "." ++ channel) i acc h)

theorem group_channels_pairwise (names : List String) (mv : Bool) :
    List.Pairwise keyLt (group_channels names mv) :=
  group_go_pairwise mv names 0 [] List.Pairwise.nil

/-- Every retained layer keeps the name, channel list, reshuffle source
and detection result of the provisional layer it came from. -/
theorem parse_layers_src : ∀ (provs : List ProvLayer) (samples : Int)
    (attr : String → String) (L : List DenoiseImageLayer),
    parse_layers samples attr provs = Except.ok L →
    ∀ l ∈ L, ∃ p ∈ provs, l.name = p.key ∧ l.channels = p.channels ∧
      l.layer_to_image_channel = p.l2ic ∧
      detect_denoising_channels p.channels p.l2ic =
        some (l.input_to_image_channel, l.output_to_image_channel) := by
  intro provs
  induction provs with
  | nil =>
    intro samples attr L h l hl
    simp only [parse_layers] at h
    cases h
    cases hl
  | cons p rest ih =>
    intro samples attr L h l hl
    simp only [parse_layers] at h
    cases hdet : detect_denoising_channels p.channels p.l2ic with
    | none =>
      rw [hdet] at h
      simp only at h
      obtain ⟨q, hq, hrest⟩ := ih samples attr L h l hl
      exact ⟨q, List.mem_cons_of_mem _ hq, hrest⟩
    | some pr =>
      obtain ⟨itic, otic⟩ := pr
      rw [hdet] at h
      simp only at h
      cases hres : resolve_samples samples p.key (attr ("cycles." ++ p.key ++ ".samples")) with
      | error e =>
        rw [hres] at h
        simp only at h
        cases h
      | ok s =>
        rw [hres] at h
        simp only at h
        cases hrec : parse_layers samples attr rest with
        | error e =>
          rw [hrec] at h
          simp only at h
          cases h
        | ok ls =>
          rw [hrec] at h
          simp only at h
          cases h
          rcases List.mem_cons.1 hl with rfl | hlm
          · exact ⟨p, List.mem_cons_self _ _, rfl, rfl, rfl, hdet⟩
          · obtain ⟨q, hq, hrest⟩ := ih samples attr ls hrec l hlm
            exact ⟨q, List.mem_cons_of_mem _ hq, hrest⟩

theorem parse_layers_pairwise : ∀ (provs : List ProvLayer) (samples : Int)
    (attr : String → String) (L : List DenoiseImageLayer),
    List.Pairwise keyLt provs →
    parse_layers samples attr provs = Except.ok L →
    List.Pairwise (fun a b : DenoiseImageLayer => strLt a.name b.name = true) L := by
  intro provs
  induction provs with
  | nil =>
    intro samples attr L _ h
    simp only [parse_layers] at h
    cases h
    exact List.Pairwise.nil
  | cons p rest ih =>
    intro samples attr L hp h
    rw [List.pairwise_cons] at hp
    obtain ⟨hl, hrest⟩ := hp
    simp only [parse_layers] at h
    cases hdet : detect_denoising_channels p.channels p.l2ic with
    | none =>
      rw [hdet] at h
      simp only at h
      exact ih samples attr L hrest h
    | some pr =>
      obtain ⟨itic, otic⟩ := pr
      rw [hdet] at h
      simp only at h
      cases hres : resolve_samples samples p.key (attr ("cycles." ++ p.key ++ ".samples")) with
      | error e =>
        rw [hres] at h
        simp only at h
        cases h
      | ok s =>
        rw [hres] at h
        simp only at h
        cases hrec : parse_layers samples attr rest with
        | error e =>
          rw [hrec] at h
          simp only at h
          cases h
        | ok ls =>
          rw [hrec] at h
          simp only at h
          cases h
          refine List.Pairwise.cons ?_ (ih samples attr ls hrest hrec)
          intro l' hl'
          obtain ⟨q, hq, hname, _⟩ := parse_layers_src rest samples attr ls hrec l' hl'
          show strLt p.key l'.name = true
          rw [hname]
          exact hl q hq

/-- Counterexample to claim C3 as stated: with layer "B"'s channels
listed before layer "A"'s, discovery order of the two retained layer
keys is `["B", "A"]`, but `parse_channels` iterates a
`std::map<string, DenoiseImageLayer>` and therefore returns the layers
sorted by key, `["A", "B"]`. -/
theorem c3_counterexample :
    ((parse_channels 1 exNamesBA false exAttrEmpty).toOption.map
        (fun ls => ls.map DenoiseImageLayer.name)) = some ["A", "B"] ∧
    discovery_keys exNamesBA false = ["B", "A"] ∧
    ((parse_channels 1 exNamesBA false exAttrEmpty).toOption.map
        (fun ls => ls.map DenoiseImageLayer.name)) ≠
      some (discovery_keys exNamesBA false) := by
  exact ⟨by decide, by decide, by decide⟩

/-- Claim C3 (corrected): the layers retained by `parse_channels` — and
hence processed by `exec`, which walks the layer list front to back — are
in ascending lexicographic order of their layer key (std::map iteration
order), not in the order the keys are first discovered in the file's
channel name list. -/
theorem c3_layers_sorted (samples : Int) (names : List String) (mv : Bool)
    (attr : String → String) (L : List DenoiseImageLayer)
    (h : parse_channels samples names mv attr = Except.ok L) :
    List.Pairwise (fun a b : DenoiseImageLayer => strLt a.name b.name = true) L :=
  parse_layers_pairwise (group_channels names mv) samples attr L
    (group_channels_pairwise names mv) h

/-- Witness for the corrected C3: the two retained layers of
`exNamesBA` come out sorted. -/
theorem c3_layers_sorted_witness :
    parse_channels 1 exNamesBA false exAttrEmpty = Except.ok exLayersBA ∧
    List.Pairwise (fun a b : DenoiseImageLayer => strLt a.name b.name = true)
      exLayersBA :=
  ⟨rfl, c3_layers_sorted 1 exNamesBA false exAttrEmpty exLayersBA rfl⟩

/-! ### C8 — samples resolution -/

theorem resolve_samples_pos (samples : Int) (h : 1 ≤ samples) (name attr_val : String) :
    resolve_samples samples name attr_val = Except.ok samples := by
  simp [resolve_samples, show ¬samples < 1 from by omega]

theorem resolve_samples_err (samples : Int) (name attr_val : String)
    (h : samples < 1)
    (hm : attr_val = "" ∨ sscanf_d attr_val.data = ScanResult.eof ∨
      sscanf_d attr_val.data = ScanResult.fail) :
    ∃ e, resolve_samples samples name attr_val = Except.error e := by
  rcases hm with hm | hm | hm
  · subst hm
    exact ⟨"No sample number specified in the file for layer " ++ name ++ " or on the command line", by simp [resolve_samples, h]⟩
  · by_cases hne : attr_val = ""
    · subst hne
      exact ⟨"No sample number specified in the file for layer " ++ name ++ " or on the command line", by simp [resolve_samples, h]⟩
    · exact ⟨"No sample number specified in the file for layer " ++ name ++ " or on the command line", by simp [resolve_samples, h, hne, hm]⟩
  · by_cases hne : attr_val = ""
    · subst hne
      exact ⟨"No sample number specified in the file for layer " ++ name ++ " or on the command line", by simp [resolve_samples, h]⟩
    · exact ⟨"Failed to parse samples metadata: " ++ attr_val, by simp [resolve_samples, h, hne, hm]⟩

theorem parse_layers_samples_pos : ∀ (provs : List ProvLayer) (samples : Int)
    (attr : String → String) (L : List DenoiseImageLayer),
    1 ≤ samples → parse_layers samples attr provs = Except.ok L →
    ∀ l ∈ L, l.samples = samples := by
  intro provs
  induction provs with
  | nil =>
    intro samples attr L _ h l hl
    simp only [parse_layers] at h
    cases h
    cases hl
  | cons p rest ih =>
    intro samples attr L hpos h l hl
    simp only [parse_layers] at h
    cases hdet : detect_denoising_channels p.channels p.l2ic with
    | none =>
      rw [hdet] at h
      simp only at h
      exact ih samples attr L hpos h l hl
    | some pr =>
      obtain ⟨itic, otic⟩ := pr
      rw [hdet] at h
      simp only at h
      rw [resolve_samples_pos samples hpos p.key _] at h
      simp only at h
      cases hrec : parse_layers samples attr rest with
      | error e =>
        rw [hrec] at h
        simp only at h
        cases h
      | ok ls =>
        rw [hrec] at h
        simp only at h
        cases h
        rcases List.mem_cons.1 hl with rfl | hlm
        · rfl
        · exact ih samples attr ls hpos hrec l hlm

theorem parse_layers_err_of_mem : ∀ (provs : List ProvLayer) (samples : Int)
    (attr : String → String) (p : ProvLayer), p ∈ provs →
    (detect_denoising_channels p.channels p.l2ic).isSome = true →
    (∃ e0, resolve_samples samples p.key
      (attr ("cycles." ++ p.key ++ ".samples")) = Except.error e0) →
    ∃ e, parse_layers samples attr provs = Except.error e := by
  intro provs
  induction provs with
  | nil => intro samples attr p hp; cases hp
  | cons q rest ih =>
    intro samples attr p hp hdet hres
    rcases List.mem_cons.1 hp with rfl | hp2
    · obtain ⟨e0, he0⟩ := hres
      simp only [parse_layers]
      cases hd : detect_denoising_channels p.channels p.l2ic with
      | none => rw [hd] at hdet; simp at hdet
      | some pr =>
        obtain ⟨itic, otic⟩ := pr
        simp only [hd, he0]
        exact ⟨e0, rfl⟩
    · obtain ⟨e, he⟩ := ih samples attr p hp2 hdet hres
      simp only [parse_layers]
      cases hd : detect_denoising_channels q.channels q.l2ic with
      | none =>
        simp only [hd]
        exact ⟨e, he⟩
      | some pr =>
        obtain ⟨itic, otic⟩ := pr
        simp only [hd]
        cases hr : resolve_samples samples q.key (attr ("cycles." ++ q.key ++ ".samples")) with
        | error e1 =>
          simp only [hr]
          exact ⟨e1, rfl⟩
        | ok s =>
          simp only [hr, he]
          exact ⟨e, rfl⟩

/-- Claim C8 (confirmed): a positive task-level override is used as every
retained layer's sample count (the metadata attribute is not consulted);
otherwise the `cycles.<layer>.samples` attribute is read and parsed as a
decimal integer, and a layer that passes channel detection whose samples
are still missing (empty or whitespace-only attribute) or unparsable
makes `parse_channels` fail with an error rather than being dropped. -/
theorem c8_samples_resolution (samples : Int) (names : List String) (mv : Bool)
    (attr : String → String) :
    (∀ L, 1 ≤ samples → parse_channels samples names mv attr = Except.ok L →
      ∀ l ∈ L, l.samples = samples) ∧
    (∀ p ∈ group_channels names mv,
      (detect_denoising_channels p.channels p.l2ic).isSome = true →
      samples < 1 →
      (attr ("cycles." ++ p.key ++ ".samples") = "" ∨
        sscanf_d (attr ("cycles." ++ p.key ++ ".samples")).data = ScanResult.eof ∨
        sscanf_d (attr ("cycles." ++ p.key ++ ".samples")).data = ScanResult.fail) →
      ∃ e, parse_channels samples names mv attr = Except.error e) := by
  constructor
  · intro L hpos h
    exact parse_layers_samples_pos (group_channels names mv) samples attr L hpos h
  · intro p hp hdet hneg hm
    exact parse_layers_err_of_mem (group_channels names mv) samples attr p hp hdet
      (resolve_samples_err samples p.key _ hneg hm)

/-- Witness for C8: override `7` is used as the samples of the single
retained layer of `exNamesA`; with override `0` and no metadata the same
input makes `parse_channels` fail. -/
theorem c8_samples_resolution_witness :
    ((1 : Int) ≤ 7 ∧ ∀ l ∈ exLayersA7, l.samples = 7) ∧
    ((0 : Int) < 1 ∧ ∃ e, parse_channels 0 exNamesA false exAttrEmpty = Except.error e) := by
  have h7 := (c8_samples_resolution 7 exNamesA false exAttrEmpty).1 exLayersA7
    (by decide) rfl
  have h0 := (c8_samples_resolution 0 exNamesA false exAttrEmpty).2 exProvA
    (by decide) (by decide) (by decide) (Or.inl rfl)
  exact ⟨⟨by decide, h7⟩, ⟨by decide, h0⟩⟩

/-! ### C10 — reshuffle table bounds -/

theorem getD_set_self : ∀ (l : List Int) (k : Nat) (v d : Int), k < l.length →
    (l.set k v).getD k d = v := by
  intro l
  induction l with
  | nil => intro k v d hk; simp at hk
  | cons a t ih =>
    intro k v d hk
    cases k with
    | zero => rfl
    | succ m =>
      show (a :: t.set m v).getD (m + 1) d = v
      rw [List.getD_cons_succ]
      exact ih m v d (by simpa using hk)

theorem getD_set_ne : ∀ (l : List Int) (k i : Nat) (v d : Int), i ≠ k →
    (l.set k v).getD i d = l.getD i d := by
  intro l
  induction l with
  | nil => intro k i v d _; rfl
  | cons a t ih =>
    intro k i v d h
    cases k with
    | zero =>
      cases i with
      | zero => omega
      | succ j =>
        show (v :: t).getD (j + 1) d = (a :: t).getD (j + 1) d
        rw [List.getD_cons_succ, List.getD_cons_succ]
    | succ m =>
      cases i with
      | zero => rfl
      | succ j =>
        show (a :: t.set m v).getD (j + 1) d = (a :: t).getD (j + 1) d
        rw [List.getD_cons_succ, List.getD_cons_succ]
        exact ih m j v d (by omega)

theorem find_index_lt (s : String) : ∀ (l : List String) (j : Nat),
    find_index s l = some j → j < l.length := by
  intro l
  induction l with
  | nil => intro j h; cases h
  | cons c cs ih =>
    intro j h
    simp only [find_index] at h
    by_cases hc : c = s
    · rw [if_pos hc] at h
      cases h
      simp
    · rw [if_neg hc] at h
      cases hf : find_index s cs with
      | none => rw [hf] at h; cases h
      | some j0 =>
        rw [hf] at h
        simp only [Option.map_some'] at h
        cases h
        have := ih j0 hf
        simp only [List.length_cons]
        omega

theorem detect_fill_length (ch : List String) (l2ic : List Nat) :
    ∀ (maps : List ChannelMapping) (acc r : List Int),
      detect_fill ch l2ic maps acc = some r → r.length = acc.length := by
  intro maps
  induction maps with
  | nil =>
    intro acc r h
    simp only [detect_fill] at h
    cases h
    rfl
  | cons m ms ih =>
    intro acc r h
    simp only [detect_fill] at h
    cases hf : find_index m.name ch with
    | none => rw [hf] at h; simp only at h; cases h
    | some j =>
      rw [hf] at h
      simp only at h
      have := ih _ r h
      rw [this, List.length_set]

theorem detect_fill_entry (ch : List String) (l2ic : List Nat)
    (hlen : l2ic.length = ch.length) :
    ∀ (maps : List ChannelMapping) (acc r : List Int),
      detect_fill ch l2ic maps acc = some r →
      ∀ i, i < acc.length →
        (∃ j, j < l2ic.length ∧ r.getD i 0 = ((l2ic.getD j 0 : Nat) : Int)) ∨
          r.getD i 0 = acc.getD i 0 := by
  intro maps
  induction maps with
  | nil =>
    intro acc r h i _
    simp only [detect_fill] at h
    cases h
    exact Or.inr rfl
  | cons m ms ih =>
    intro acc r h i hi
    simp only [detect_fill] at h
    cases hf : find_index m.name ch with
    | none => rw [hf] at h; simp only at h; cases h
    | some j =>
      rw [hf] at h
      simp only at h
      have hj : j < l2ic.length := by
        rw [hlen]
        exact find_index_lt _ ch j hf
      rcases ih _ r h i (by rw [List.length_set]; exact hi) with h1 | h1
      · exact Or.inl h1
      · by_cases hik : i = m.channel
        · subst hik
          rw [getD_set_self acc m.channel _ 0 hi] at h1
          exact Or.inl ⟨j, hj, h1⟩
        · rw [getD_set_ne acc m.channel i _ 0 hik] at h1
          exact Or.inr h1

theorem detect_fill_covered (ch : List String) (l2ic : List Nat)
    (hlen : l2ic.length = ch.length) :
    ∀ (maps : List ChannelMapping) (acc r : List Int),
      detect_fill ch l2ic maps acc = some r →
      ∀ m ∈ maps, m.channel < acc.length →
        ∃ j, j < l2ic.length ∧ r.getD m.channel 0 = ((l2ic.getD j 0 : Nat) : Int) := by
  intro maps
  induction maps with
  | nil => intro acc r _ m hm; cases hm
  | cons m0 ms ih =>
    intro acc r h m hm hmc
    simp only [detect_fill] at h
    cases hf : find_index m0.name ch with
    | none => rw [hf] at h; simp only at h; cases h
    | some j =>
      rw [hf] at h
      simp only at h
      rcases List.mem_cons.1 hm with rfl | hm2
      · have hj : j < l2ic.length := by
          rw [hlen]
          exact find_index_lt _ ch j hf
        rcases detect_fill_entry ch l2ic hlen ms _ r h m.channel
            (by rw [List.length_set]; exact hmc) with ⟨j1, hj1, he⟩ | he
        · exact ⟨j1, hj1, he⟩
        · rw [getD_set_self acc m.channel _ 0 hmc] at he
          exact ⟨j, hj, he⟩
      · exact ih _ r h m hm2 (by rw [List.length_set]; exact hmc)

/-- One reshuffle table filled from a full cover of its slots holds only
in-range file channel indices. -/
theorem detect_half_bound (chs : List String) (l2ic : List Nat) (N : Nat)
    (hlen : l2ic.length = chs.length) (hN : ∀ e ∈ l2ic, e < N)
    (maps : List ChannelMapping) (K : Nat) (res : List Int)
    (hrun : detect_fill chs l2ic maps (List.replicate K (-1)) = some res)
    (hcov : ∀ t, t < K → ∃ m ∈ maps, m.channel = t) :
    ∀ e ∈ res, 0 ≤ e ∧ e.toNat < N := by
  intro e he
  obtain ⟨i, hi, hei⟩ := List.getElem_of_mem he
  have hresl : res.length = K := by
    rw [detect_fill_length chs l2ic maps _ res hrun, List.length_replicate]
  have hiK : i < K := by omega
  obtain ⟨m, hm, hmc⟩ := hcov i hiK
  obtain ⟨j, hj, he2⟩ := detect_fill_covered chs l2ic hlen maps _ res hrun m hm
    (by rw [List.length_replicate, hmc]; exact hiK)
  rw [hmc] at he2
  rw [List.getD_eq_getElem res 0 hi, hei] at he2
  have hval : l2ic.getD j 0 ∈ l2ic := by
    rw [List.getD_eq_getElem l2ic 0 hj]
    exact List.getElem_mem hj
  have hvN := hN _ hval
  subst he2
  constructor
  · exact Int.natCast_nonneg _
  · rwa [Int.toNat_natCast]

theorem addChannel_inv (N : Nat) (key ch : String) (idx : Nat) (hidx : idx < N) :
    ∀ acc, (∀ p ∈ acc, (∀ e ∈ p.l2ic, e < N) ∧ p.l2ic.length = p.channels.length) →
      ∀ p ∈ addChannel key ch idx acc,
        (∀ e ∈ p.l2ic, e < N) ∧ p.l2ic.length = p.channels.length := by
  intro acc
  induction acc with
  | nil =>
    intro _ p hp
    simp only [addChannel, List.mem_singleton] at hp
    subst hp
    exact ⟨fun e he => by simp only [List.mem_singleton] at he; omega, rfl⟩
  | cons l rest ih =>
    intro hacc p hp
    simp only [addChannel] at hp
    by_cases h1 : strLt key l.key = true
    · rw [if_pos h1] at hp
      rcases List.mem_cons.1 hp with rfl | hp2
      · exact ⟨fun e he => by simp only [List.mem_singleton] at he; omega, rfl⟩
      · exact hacc p hp2
    · rw [if_neg h1] at hp
      by_cases h2 : strLt l.key key = true
      · rw [if_pos h2] at hp
        rcases List.mem_cons.1 hp with rfl | hp2
        · exact hacc p (List.mem_cons_self _ _)
        · exact ih (fun q hq => hacc q (List.mem_cons_of_mem _ hq)) p hp2
      · rw [if_neg h2] at hp
        rcases List.mem_cons.1 hp with rfl | hp2
        · obtain ⟨hb, hl⟩ := hacc l (List.mem_cons_self _ _)
          refine ⟨?_, by simp [hl]⟩
          intro e he
          rcases List.mem_append.1 he with he1 | he1
          · exact hb e he1
          · simp only [List.mem_singleton] at he1
            omega
        · exact hacc p (List.mem_cons_of_mem _ hp2)

theorem group_go_inv (mv : Bool) (N : Nat) : ∀ (names : List String) (i : Nat)
    (acc : List ProvLayer), i + names.length ≤ N →
    (∀ p ∈ acc, (∀ e ∈ p.l2ic, e < N) ∧ p.l2ic.length = p.channels.length) →
    ∀ p ∈ group_go mv names i acc,
      (∀ e ∈ p.l2ic, e < N) ∧ p.l2ic.length = p.channels.length := by
  intro names
  induction names with
  | nil => intro i acc _ hacc p hp; exact hacc p hp
  | cons name rest ih =>
    intro i acc hbound hacc p hp
    simp only [group_go] at hp
    cases hpc : parse_channel_name name mv with
    | none =>
      rw [hpc] at hp
      exact ih (i + 1) acc (by simp at hbound ⊢; omega) hacc p hp
    | some v =>
      obtain ⟨layer, pass, channel⟩ := v
      rw [hpc] at hp
      refine ih (i + 1) _ (by simp at hbound ⊢; omega) ?_ p hp
      exact addChannel_inv N layer (pass ++ "." ++ channel) i
        (by simp at hbound; omega) acc hacc

theorem group_channels_inv (names : List String) (mv : Bool) :
    ∀ p ∈ group_channels names mv,
      (∀ e ∈ p.l2ic, e < names.length) ∧ p.l2ic.length = p.channels.length := by
  intro p hp
  exact group_go_inv mv names.length names 0 [] (by omega)
    (fun q hq => by cases hq) p hp

/-- Claim C10 (confirmed): every entry of a retained layer's
`input_to_image_channel` (15 entries) and `output_to_image_channel`
(3 entries) is a file channel index: non-negative and strictly below the
file's channel count (`num_channels = names.length`). Hence the per-pixel
indexing `i*num_channels + entry` used by `read_pixels`, the seeding of
`map_neighboring_tiles` and the write-back of `unmap_neighboring_tiles`
stays inside the pixel buffer for every pixel `i` of the image. -/
theorem c10_channel_bounds (samples : Int) (names : List String) (mv : Bool)
    (attr : String → String) (L : List DenoiseImageLayer)
    (h : parse_channels samples names mv attr = Except.ok L) :
    ∀ l ∈ L,
      (∀ e ∈ l.input_to_image_channel, 0 ≤ e ∧ e.toNat < names.length) ∧
      (∀ e ∈ l.output_to_image_channel, 0 ≤ e ∧ e.toNat < names.length) ∧
      (∀ e ∈ l.input_to_image_channel, ∀ pix M : Nat, pix < M →
        pix * names.length + e.toNat < M * names.length) := by
  intro l hl
  obtain ⟨p, hp, _, _, _, hdet⟩ :=
    parse_layers_src (group_channels names mv) samples attr L h l hl
  obtain ⟨hbound, hlen⟩ := group_channels_inv names mv p hp
  simp only [detect_denoising_channels] at hdet
  cases hin : detect_fill p.channels p.l2ic input_channels
      (List.replicate INPUT_NUM_CHANNELS (-1)) with
  | none => rw [hin] at hdet; simp only at hdet; cases hdet
  | some itic1 =>
    rw [hin] at hdet
    simp only at hdet
    cases hout : detect_fill p.channels p.l2ic output_channels
        (List.replicate OUTPUT_NUM_CHANNELS (-1)) with
    | none => rw [hout] at hdet; simp only at hdet; cases hdet
    | some otic1 =>
      rw [hout] at hdet
      simp only [Option.some.injEq, Prod.mk.injEq] at hdet
      obtain ⟨h1, h2⟩ := hdet
      have hcovin : ∀ t, t < INPUT_NUM_CHANNELS →
          ∃ m ∈ input_channels, m.channel = t := by decide
      have hcovout : ∀ t, t < OUTPUT_NUM_CHANNELS →
          ∃ m ∈ output_channels, m.channel = t := by decide
      have hitic : ∀ e ∈ l.input_to_image_channel, 0 ≤ e ∧ e.toNat < names.length := by
        rw [← h1]
        exact detect_half_bound p.channels p.l2ic names.length hlen hbound
          input_channels INPUT_NUM_CHANNELS itic1 hin hcovin
      have hotic : ∀ e ∈ l.output_to_image_channel, 0 ≤ e ∧ e.toNat < names.length := by
        rw [← h2]
        exact detect_half_bound p.channels p.l2ic names.length hlen hbound
          output_channels OUTPUT_NUM_CHANNELS otic1 hout hcovout
      refine ⟨hitic, hotic, ?_⟩
      intro e he pix M hpm
      obtain ⟨_, heN⟩ := hitic e he
      have hm1 : (pix + 1) * names.length ≤ M * names.length :=
        Nat.mul_le_mul_right _ (by omega)
      have hm2 : (pix + 1) * names.length = pix * names.length + names.length := by
        ring
      omega

/-- Witness for C10: the two retained layers of `exNamesBA` (36 file
channels) have all reshuffle entries in `[0, 36)`. -/
theorem c10_channel_bounds_witness :
    parse_channels 1 exNamesBA false exAttrEmpty = Except.ok exLayersBA ∧
    ∀ l ∈ exLayersBA,
      (∀ e ∈ l.input_to_image_channel, 0 ≤ e ∧ e.toNat < exNamesBA.length) ∧
      (∀ e ∈ l.output_to_image_channel, 0 ≤ e ∧ e.toNat < exNamesBA.length) ∧
      (∀ e ∈ l.input_to_image_channel, ∀ pix M : Nat, pix < M →
        pix * exNamesBA.length + e.toNat < M * exNamesBA.length) :=
  ⟨rfl, c10_channel_bounds 1 exNamesBA false exAttrEmpty exLayersBA rfl⟩

end Denoise
